import Mathlib

/-!
# Verification of the scope3 in-memory cache and batch lookup handler

Shallow embedding of the Go program (custom priority-queue cache plus the
batched emission-lookup HTTP handler).  Conventions of the embedding:

* `time.Time` instants and `time.Duration` values are modelled as `Int`
  ticks; `t.Before u` is `t < u`.  The two `time.Now()` calls inside
  `SetWithTTL` (expiry computation and the `timestamp` field) are modelled
  as the same instant `now`, and every operation receives the current
  instant as an explicit parameter.
* `uint8` priorities are modelled as `Nat` (only compared, never
  overflowed) and `float64` emission values as `Int` (only stored and
  copied, never computed with).
* Go pointer identity of `*CacheItem` is modelled by a fresh `id : Nat`
  drawn from an allocation counter in the cache state.  The `index` field
  maintained by `PriorityQueue.Swap/Push/Pop` always equals the item's
  position in the slice, so it is modelled by the position itself.
* Run-time panics (out-of-range heap access) are modelled by `Except Unit`;
  `.ok` is normal completion.
* The `onEvict` callback only logs; it is modelled by a Boolean flag
  (callback set or nil) plus a list recording every invocation.
-/

/-- `CacheKey` from the source: pair of inventory id and UTC datetime. -/
structure CacheKey where
  inventoryID : String
  utcDatetime : String
deriving DecidableEq, Repr

/-- `CacheValue` from the source: emissions value plus priority. -/
structure CacheValue where
  emissions : Int
  priority : Nat
deriving DecidableEq, Repr

/-- `CacheItem` from the source.  The Go `index` field is represented by the
item's position in the priority-queue slice (which `container/heap` keeps
equal to `index`); `id` models pointer identity of the heap-allocated
`*CacheItem`. -/
structure CacheItem where
  key : CacheKey
  value : CacheValue
  expiry : Int
  timestamp : Int
  id : Nat
deriving DecidableEq, Repr

/-- Default item used only to totalise list indexing; all indexing in the
verified operations stays in bounds. -/
def dummyItem : CacheItem :=
  { key := ⟨"", ""⟩, value := ⟨0, 0⟩, expiry := 0, timestamp := 0, id := 0 }

instance : Inhabited CacheItem := ⟨dummyItem⟩

/-- `PriorityQueue.Less` from the source:
equal priorities are ordered by older timestamp first, otherwise by
numerically larger priority first. -/
def lessI (a b : CacheItem) : Bool :=
  if a.value.priority = b.value.priority then
    decide (a.timestamp < b.timestamp)
  else
    decide (a.value.priority > b.value.priority)

/-- Positional read of the priority-queue slice. -/
def nth (l : List CacheItem) (i : Nat) : CacheItem :=
  l.getD i dummyItem

/-- `PriorityQueue.Swap` from the source (the index-field update is the
position change itself). -/
def swapL (l : List CacheItem) (i j : Nat) : List CacheItem :=
  (l.set i (nth l j)).set j (nth l i)

/-- `container/heap.up`: sift the element at `j` towards the root.  Go's
loop breaks when `i == j`, which for the parent map `(j-1)/2` happens
exactly at `j = 0`. -/
def up (l : List CacheItem) (j : Nat) : List CacheItem :=
  if h : j = 0 then l
  else if lessI (nth l j) (nth l ((j - 1) / 2)) then
    up (swapL l ((j - 1) / 2) j) ((j - 1) / 2)
  else l
termination_by j
decreasing_by exact Nat.lt_of_le_of_lt (Nat.div_le_self _ 2) (Nat.pred_lt h)

/-- Child selection inside `container/heap.down`: the right child when it
exists and sorts strictly before the left child, else the left child. -/
def pickChild (l : List CacheItem) (i n : Nat) : Nat :=
  if 2 * i + 2 < n ∧ lessI (nth l (2 * i + 2)) (nth l (2 * i + 1)) then 2 * i + 2
  else 2 * i + 1

theorem pickChild_gt (l : List CacheItem) (i n : Nat) : i < pickChild l i n := by
  unfold pickChild
  split <;> omega

theorem pickChild_lt (l : List CacheItem) {i n : Nat} (h : 2 * i + 1 < n) :
    pickChild l i n < n := by
  unfold pickChild
  split <;> omega

/-- `container/heap.down`: sift the element at `i` down within the region
`[0, n)`; returns the final position of the hole (Go returns `i > i0`,
recovered by comparing the result with the start index). -/
def down (l : List CacheItem) (i n : Nat) : List CacheItem × Nat :=
  if h : 2 * i + 1 < n then
    if lessI (nth l (pickChild l i n)) (nth l i) then
      down (swapL l i (pickChild l i n)) (pickChild l i n) n
    else (l, i)
  else (l, i)
termination_by n - i
decreasing_by
  have h1 := pickChild_gt l i n
  have h2 := pickChild_lt l h
  omega

/-- `container/heap.Push` composed with the user `PriorityQueue.Push`:
append at the end, then sift up from the last position. -/
def heapPush (l : List CacheItem) (x : CacheItem) : List CacheItem :=
  up (l ++ [x]) l.length

/-- `container/heap.Pop` composed with the user `PriorityQueue.Pop`:
swap root and last, sift down within the shortened region, then remove and
return the last element.	On an empty slice Go panics (`Swap(0, -1)`). -/
def heapPop (l : List CacheItem) : Option (CacheItem × List CacheItem) :=
  if l.length = 0 then none
  else
    let n := l.length - 1
    let l2 := (down (swapL l 0 n) 0 n).1
    some (nth l2 n, l2.take n)

/-- `container/heap.Remove` composed with the user `PriorityQueue.Pop`:
swap position `i` with the last, repair with `down` and, when the element
did not move down, with `up`; Go panics when `i` is out of range. -/
def heapRemove (l : List CacheItem) (i : Nat) : Option (CacheItem × List CacheItem) :=
  if i < l.length then
    let n := l.length - 1
    if i = n then some (nth l n, l.take n)
    else
      let l1 := swapL l i n
      let p := down l1 i n
      let l3 := if p.2 > i then p.1 else up p.1 i
      some (nth l3 n, l3.take n)
  else none

theorem swapL_length (l : List CacheItem) (i j : Nat) :
    (swapL l i j).length = l.length := by
  simp [swapL]

theorem down_length (l : List CacheItem) (i n : Nat) :
    ((down l i n).1).length = l.length := by
  unfold down
  split
  · next h =>
    split
    · rw [down_length, swapL_length]
    · rfl
  · rfl
termination_by n - i
decreasing_by
  next h _ =>
    have h1 := pickChild_gt l i n
    have h2 := pickChild_lt l h
    omega

theorem up_length (l : List CacheItem) (j : Nat) :
    (up l j).length = l.length := by
  unfold up
  split
  · rfl
  · split
    · rw [up_length, swapL_length]
    · rfl
termination_by j
decreasing_by
  next h _ =>
    exact Nat.lt_of_le_of_lt (Nat.div_le_self _ 2) (Nat.pred_lt h)

/-- Association-list model of the Go map `items`: first lookup wins (the
operations keep keys unique). -/
def lookupItems (l : List (CacheKey × CacheItem)) (k : CacheKey) : Option CacheItem :=
  match l with
  | [] => none
  | p :: t => if p.1 = k then some p.2 else lookupItems t k

/-- Go map assignment `items[key] = item`: replace in place, or add. -/
def insertItems (l : List (CacheKey × CacheItem)) (k : CacheKey) (it : CacheItem) :
    List (CacheKey × CacheItem) :=
  match l with
  | [] => [(k, it)]
  | p :: t => if p.1 = k then (k, it) :: t else p :: insertItems t k it

/-- Go `delete(items, key)`. -/
def eraseItems (l : List (CacheKey × CacheItem)) (k : CacheKey) :
    List (CacheKey × CacheItem) :=
  match l with
  | [] => []
  | p :: t => if p.1 = k then t else p :: eraseItems t k

/-- The `Cache` struct from the source.  `onEvictSet` models whether the
`onEvict` callback is non-nil, `evictLog` records its invocations, and
`nextId` models the allocator producing distinct `*CacheItem` pointers. -/
structure Cache where
  items : List (CacheKey × CacheItem)
  maxSize : Int
  currSize : Int
  pq : List CacheItem
  onEvictSet : Bool
  evictLog : List (CacheKey × CacheValue)
  nextId : Nat
deriving DecidableEq, Repr

/-- The cache as built by `CreateServer`: empty, with the logging `onEvict`
callback installed. -/
def initCache (maxSize : Int) : Cache :=
  { items := [], maxSize := maxSize, currSize := 0, pq := [],
    onEvictSet := true, evictLog := [], nextId := 0 }

/-- `Cache.Get`: a hit only when the key is present and its expiry has not
passed; no state is modified (the returned cache is the state after the
call, taken verbatim from the source which only reads). -/
def Cache.get (c : Cache) (k : CacheKey) (now : Int) : (CacheValue × Bool) × Cache :=
  match lookupItems c.items k with
  | none => ((⟨0, 0⟩, false), c)
  | some it =>
      if it.expiry < now then ((⟨0, 0⟩, false), c)
      else ((it.value, true), c)

/-- The `CacheItem` allocated by `SetWithTTL` at instant `now`. -/
def madeItem (c : Cache) (k : CacheKey) (v : CacheValue) (ttl now : Int) : CacheItem :=
  { key := k, value := v, expiry := now + ttl, timestamp := now, id := c.nextId }

/-- Record an `onEvict` invocation when the callback is set. -/
def logEvict (c : Cache) (k : CacheKey) (v : CacheValue) : List (CacheKey × CacheValue) :=
  if c.onEvictSet then c.evictLog ++ [(k, v)] else c.evictLog

/-- One iteration of the capacity-eviction loop body in `SetWithTTL`:
pop the top of the priority queue, delete its key from the map, decrement
the live count and notify `onEvict`. -/
def evictStep (c : Cache) : Except Unit Cache :=
  match heapPop c.pq with
  | none => .error ()
  | some (ev, pq') =>
      .ok { c with
              pq := pq', items := eraseItems c.items ev.key,
              currSize := c.currSize - 1, evictLog := logEvict c ev.key ev.value }

theorem heapPop_length {l : List CacheItem} {ev : CacheItem} {r : List CacheItem}
    (h : heapPop l = some (ev, r)) : r.length < l.length := by
  unfold heapPop at h
  split at h
  · exact absurd h (by simp)
  · next hne =>
    simp only [Option.some.injEq, Prod.mk.injEq] at h
    have hlen : ((down (swapL l 0 (l.length - 1)) 0 (l.length - 1)).1).length = l.length := by
      rw [down_length, swapL_length]
    rw [← h.2]
    rw [List.length_take, hlen]
    omega

/-- The `for c.currSize > c.maxSize` eviction loop of `SetWithTTL`. -/
def evictLoop (c : Cache) : Except Unit Cache :=
  if c.currSize > c.maxSize then
    match h : heapPop c.pq with
    | none => .error ()
    | some (ev, pq') =>
        evictLoop { c with
                      pq := pq', items := eraseItems c.items ev.key,
                      currSize := c.currSize - 1,
                      evictLog := logEvict c ev.key ev.value }
  else .ok c
termination_by c.pq.length
decreasing_by exact heapPop_length h

/-- The part of `SetWithTTL` before the eviction loop: remove any existing
entry for the key (decrementing the live count and removing it from the
heap at its index), then allocate the new item, store it in the map, push
it on the heap and increment the live count.  The asynchronous expiry
goroutine it spawns is modelled by `expireTask` run at a later instant. -/
def setInsert (c : Cache) (k : CacheKey) (v : CacheValue) (ttl now : Int) :
    Except Unit Cache :=
  match lookupItems c.items k with
  | some old =>
      match heapRemove c.pq (c.pq.findIdx (fun it => it.id = old.id)) with
      | none => .error ()
      | some (_, pq') =>
          .ok { c with
                  items := insertItems c.items k (madeItem c k v ttl now),
                  pq := heapPush pq' (madeItem c k v ttl now),
                  currSize := c.currSize - 1 + 1,
                  nextId := c.nextId + 1 }
  | none =>
      .ok { c with
              items := insertItems c.items k (madeItem c k v ttl now),
              pq := heapPush c.pq (madeItem c k v ttl now),
              currSize := c.currSize + 1,
              nextId := c.nextId + 1 }

/-- `Cache.SetWithTTL` (minus the spawned goroutine, modelled separately). -/
def Cache.setWithTTL (c : Cache) (k : CacheKey) (v : CacheValue) (ttl now : Int) :
    Except Unit Cache :=
  match setInsert c k v ttl now with
  | .error e => .error e
  | .ok c2 => evictLoop c2

/-- The body of the expiry goroutine spawned by `SetWithTTL`, run when its
sleep ends at instant `now`: remove the entry for the key only if one is
present and its expiry has passed, notifying `onEvict`. -/
def expireTask (c : Cache) (k : CacheKey) (now : Int) : Except Unit Cache :=
  match lookupItems c.items k with
  | some it =>
      if it.expiry < now then
        match heapRemove c.pq (c.pq.findIdx (fun x => x.id = it.id)) with
        | none => .error ()
        | some (_, pq') =>
            .ok { c with
                    pq := pq', items := eraseItems c.items k,
                    currSize := c.currSize - 1,
                    evictLog := logEvict c it.key it.value }
      else .ok c
  | none => .ok c

/-- `Inventory` from the source: one inbound batch row (binding validation
requires the fields and a priority in `[1,10]`; the handler is modelled
from the point where binding succeeded). -/
structure Inventory where
  inventoryID : String
  utcDatetime : String
  priority : Nat
deriving DecidableEq, Repr

/-- `EmissionData` from the source: one response row. -/
structure EmissionData where
  inventoryID : String
  emissions : Int
deriving DecidableEq, Repr

/-- Lookup in the Go map `cacheMisses : map[string]Inventory`. -/
def lookupMiss (l : List (String × Inventory)) (k : String) : Option Inventory :=
  match l with
  | [] => none
  | p :: t => if p.1 = k then some p.2 else lookupMiss t k

/-- Assignment `cacheMisses[key.InventoryID] = row`: replace or add. -/
def insertMiss (l : List (String × Inventory)) (k : String) (v : Inventory) :
    List (String × Inventory) :=
  match l with
  | [] => [(k, v)]
  | p :: t => if p.1 = k then (k, v) :: t else p :: insertMiss t k v

/-- The per-row cache-check loop of `EmissionHandler`: hits are appended to
the result in arrival order, misses are collected into `cacheMisses`
keyed by `InventoryID` alone. -/
def collectRows (c : Cache) (rows : List Inventory) (now : Int) :
    List EmissionData × List (String × Inventory) :=
  rows.foldl
    (fun acc row =>
      let key : CacheKey := ⟨row.inventoryID, row.utcDatetime⟩
      let r := (c.get key now).1
      if r.2 then (acc.1 ++ [⟨key.inventoryID, r.1.emissions⟩], acc.2)
      else (acc.1, insertMiss acc.2 row.inventoryID row))
    ([], [])

/-- The write-back loop of `EmissionHandler`: each fetched row whose
identifier is in the miss map is stored under the key rebuilt from the
identifier and the *miss-map row's* datetime, with the miss-map row's
priority and the server-wide expiration. -/
def writeBack (c : Cache) (misses : List (String × Inventory))
    (resBody : List EmissionData) (ttl now : Int) : Except Unit Cache :=
  resBody.foldlM
    (fun cache data =>
      match lookupMiss misses data.inventoryID with
      | some v =>
          cache.setWithTTL ⟨data.inventoryID, v.utcDatetime⟩
            ⟨data.emissions, v.priority⟩ ttl now
      | none => .ok cache)
    c

/-- `Server.EmissionHandler` after successful binding.  `fetch` abstracts
`getEmissionDataFromInternalAPI` (request building, the HTTP round trip and
response decoding); it receives the deduplicated miss map and yields either
the decoded rows or a failure (transport error, non-200 status, or
undecodable payload).  The result is the HTTP status, the response rows
(empty on the error response) and the cache state afterwards. -/
def emissionHandler (c : Cache) (rows : List Inventory) (ttl now : Int)
    (fetch : List (String × Inventory) → Except Unit (List EmissionData)) :
    Except Unit (Nat × List EmissionData × Cache) :=
  let hm := collectRows c rows now
  if hm.2.isEmpty then .ok (200, hm.1, c)
  else
    match fetch hm.2 with
    | .error _ => .ok (500, [], c)
    | .ok resBody =>
        match writeBack c hm.2 resBody ttl now with
        | .error e => .error e
        | .ok c' => .ok (200, hm.1 ++ resBody, c')

theorem lessI_irrefl (a : CacheItem) : lessI a a = false := by
  simp [lessI]

theorem lessI_asymm {a b : CacheItem} (h : lessI a b = true) : lessI b a = false := by
  unfold lessI at *
  split at h <;> split <;> simp_all <;> omega

theorem lessI_trans {a b c : CacheItem} (h1 : lessI a b = true) (h2 : lessI b c = true) :
    lessI a c = true := by
  unfold lessI at *
  split at h1 <;> split at h2 <;> split <;> simp_all <;> omega

theorem lessI_neg_trans {a b c : CacheItem} (h1 : lessI a b = false)
    (h2 : lessI b c = false) : lessI a c = false := by
  unfold lessI at *
  split at h1 <;> split at h2 <;> split <;> simp_all <;> omega

theorem lessI_neg_of_lt_of_neg {a b c : CacheItem} (h1 : lessI a b = false)
    (h2 : lessI c b = true) : lessI a c = false := by
  cases h : lessI a c
  · rfl
  · exact absurd h1 (by simp [lessI_trans h h2])

theorem nth_set_self (l : List CacheItem) (i : Nat) : l.set i (nth l i) = l := by
  induction l generalizing i with
  | nil => rfl
  | cons x t ih =>
    cases i with
    | zero => rfl
    | succ k => simpa [nth, List.getD_cons_succ] using congrArg (x :: ·) (ih k)

theorem nth_cons_set_perm (l : List CacheItem) (k : Nat) (x : CacheItem)
    (hk : k < l.length) : (nth l k :: l.set k x).Perm (x :: l) := by
  induction l generalizing k with
  | nil => simp at hk
  | cons y t ih =>
    cases k with
    | zero => exact List.Perm.swap x y t
    | succ k =>
      have hk' : k < t.length := by simpa using hk
      have h1 : (nth t k :: y :: t.set k x).Perm (y :: nth t k :: t.set k x) :=
        List.Perm.swap y (nth t k) (t.set k x)
      have h2 : (y :: nth t k :: t.set k x).Perm (y :: x :: t) :=
        List.Perm.cons y (ih k hk')
      have h3 : (y :: x :: t).Perm (x :: y :: t) := List.Perm.swap x y t
      exact (h1.trans h2).trans h3

theorem swapL_perm (l : List CacheItem) {i j : Nat} (hi : i < l.length)
    (hj : j < l.length) : (swapL l i j).Perm l := by
  by_cases hij : i = j
  · subst hij
    rw [swapL, List.set_set, nth_set_self]
  · unfold swapL
    have hj' : j < (l.set i (nth l j)).length := by simpa using hj
    have h1 := nth_cons_set_perm (l.set i (nth l j)) j (nth l i) hj'
    have h2 := nth_cons_set_perm l i (nth l j) hi
    have hnth : nth (l.set i (nth l j)) j = nth l j := by
      unfold nth
      rw [List.getD_eq_getElem?_getD, List.getD_eq_getElem?_getD,
        List.getElem?_set_ne hij]
    rw [hnth] at h1
    exact List.Perm.cons_inv (h1.trans h2)

theorem nth_swapL_fst (l : List CacheItem) {i j : Nat} (hi : i < l.length)
    (hj : j < l.length) : nth (swapL l i j) i = nth l j := by
  unfold swapL nth
  by_cases hij : i = j
  · subst hij
    rw [List.getD_eq_getElem?_getD, List.getElem?_set_eq (by simpa using hi)]
    rfl
  · rw [List.getD_eq_getElem?_getD, List.getElem?_set_ne (Ne.symm hij),
      List.getElem?_set_eq hi]
    rfl

theorem nth_swapL_snd (l : List CacheItem) {i j : Nat} (hj : j < l.length) :
    nth (swapL l i j) j = nth l i := by
  unfold swapL nth
  rw [List.getD_eq_getElem?_getD, List.getElem?_set_eq (by simpa using hj)]
  rfl

theorem nth_swapL_ne (l : List CacheItem) {i j k : Nat} (hki : k ≠ i)
    (hkj : k ≠ j) : nth (swapL l i j) k = nth l k := by
  unfold swapL nth
  rw [List.getD_eq_getElem?_getD, List.getElem?_set_ne (Ne.symm hkj),
    List.getElem?_set_ne (Ne.symm hki), List.getD_eq_getElem?_getD]

theorem nth_up_of_gt (l : List CacheItem) (j : Nat) {k : Nat} (hk : j < k) :
    nth (up l j) k = nth l k := by
  unfold up
  split
  · rfl
  · next hj =>
    split
    · rw [nth_up_of_gt _ _ (by omega), nth_swapL_ne]
      · omega
      · have : (j - 1) / 2 < j := Nat.lt_of_le_of_lt (Nat.div_le_self _ 2) (Nat.pred_lt hj)
        omega
    · rfl
termination_by j
decreasing_by
  next hj _ =>
    exact Nat.lt_of_le_of_lt (Nat.div_le_self _ 2) (Nat.pred_lt hj)

theorem nth_down_of_ge (l : List CacheItem) (i n : Nat) {k : Nat} (hk : n ≤ k) :
    nth ((down l i n).1) k = nth l k := by
  unfold down
  split
  · next h =>
    have h1 := pickChild_gt l i n
    have h2 := pickChild_lt l h
    split
    · rw [nth_down_of_ge _ _ _ hk, nth_swapL_ne] <;> omega
    · rfl
  · rfl
termination_by n - i
decreasing_by
  next h _ =>
    have h1 := pickChild_gt l i n
    have h2 := pickChild_lt l h
    omega

theorem up_perm (l : List CacheItem) (j : Nat) (hj : j < l.length) :
    (up l j).Perm l := by
  unfold up
  split
  · exact List.Perm.refl l
  · next hj0 =>
    have hp : (j - 1) / 2 < j := Nat.lt_of_le_of_lt (Nat.div_le_self _ 2) (Nat.pred_lt hj0)
    split
    · have hlen : (swapL l ((j - 1) / 2) j).length = l.length := swapL_length ..
      exact ((up_perm _ _ (by omega)).trans (swapL_perm l (by omega) hj))
    · exact List.Perm.refl l
termination_by j
decreasing_by
  next hj0 _ =>
    exact Nat.lt_of_le_of_lt (Nat.div_le_self _ 2) (Nat.pred_lt hj0)

theorem down_perm (l : List CacheItem) (i n : Nat) (hn : n ≤ l.length) :
    ((down l i n).1).Perm l := by
  unfold down
  split
  · next h =>
    have h1 := pickChild_gt l i n
    have h2 := pickChild_lt l h
    split
    · have hlen : (swapL l i (pickChild l i n)).length = l.length := swapL_length ..
      exact (down_perm _ _ _ (by omega)).trans (swapL_perm l (by omega) (by omega))
    · exact List.Perm.refl l
  · exact List.Perm.refl l
termination_by n - i
decreasing_by
  next h _ =>
    have h1 := pickChild_gt l i n
    have h2 := pickChild_lt l h
    omega

theorem heapPush_perm (l : List CacheItem) (x : CacheItem) :
    (heapPush l x).Perm (x :: l) := by
  unfold heapPush
  have h1 : (up (l ++ [x]) l.length).Perm (l ++ [x]) :=
    up_perm _ _ (by simp)
  exact h1.trans List.perm_append_comm

theorem heapPush_length (l : List CacheItem) (x : CacheItem) :
    (heapPush l x).length = l.length + 1 := by
  simpa using (heapPush_perm l x).length_eq

theorem take_last_decomp {l : List CacheItem} (hne : l.length ≠ 0) :
    l = l.take (l.length - 1) ++ [nth l (l.length - 1)] := by
  have hne' : l ≠ [] := by
    cases l <;> simp_all
  have h1 := List.dropLast_append_getLast hne'
  rw [List.dropLast_eq_take] at h1
  have h2 : l.getLast hne' = nth l (l.length - 1) := by
    rw [List.getLast_eq_getElem]
    unfold nth
    rw [List.getD_eq_getElem l dummyItem (by omega)]
  conv_lhs => rw [← h1]
  rw [h2]

theorem heapPop_spec {l : List CacheItem} {ev : CacheItem} {r : List CacheItem}
    (h : heapPop l = some (ev, r)) :
    ev = nth l 0 ∧ (ev :: r).Perm l ∧ r.length + 1 = l.length := by
  unfold heapPop at h
  split at h
  · exact absurd h (by simp)
  · next hne =>
    simp only [Option.some.injEq, Prod.mk.injEq] at h
    obtain ⟨hev, hr⟩ := h
    set n := l.length - 1 with hn
    set l2 := (down (swapL l 0 n) 0 n).1 with hl2
    have hlen2 : l2.length = l.length := by
      rw [hl2, down_length, swapL_length]
    have hroot : nth l2 n = nth l 0 := by
      rw [hl2, nth_down_of_ge _ _ _ (le_refl n), nth_swapL_snd]
      omega
    have hperm2 : l2.Perm l := by
      have hd : l2.Perm (swapL l 0 n) := down_perm _ _ _ (by rw [swapL_length]; omega)
      exact hd.trans (swapL_perm l (by omega) (by omega))
    constructor
    · rw [← hev, hroot]
    constructor
    · have hdecomp : l2 = l2.take n ++ [nth l2 n] := by
        have := take_last_decomp (l := l2) (by omega)
        rw [hlen2] at this
        exact this
      have : (ev :: r) = [nth l2 n] ++ l2.take n := by
        rw [← hev, ← hr]
        rfl
      rw [this]
      exact (List.perm_append_comm).trans (hdecomp ▸ hperm2)
    · rw [← hr, List.length_take]
      omega

theorem heapRemove_spec {l : List CacheItem} {i : Nat} {ev : CacheItem}
    {r : List CacheItem} (h : heapRemove l i = some (ev, r)) :
    ev = nth l i ∧ (ev :: r).Perm l ∧ r.length + 1 = l.length := by
  unfold heapRemove at h
  split at h
  · next hi =>
    set n := l.length - 1 with hn
    by_cases hin : i = n
    · rw [if_pos hin] at h
      simp only [Option.some.injEq, Prod.mk.injEq] at h
      obtain ⟨hev, hr⟩ := h
      refine ⟨by rw [← hev, hin], ?_, by rw [← hr, List.length_take]; omega⟩
      have hdecomp : l = l.take n ++ [nth l n] := take_last_decomp (by omega)
      have hcons : (ev :: r) = [nth l n] ++ l.take n := by
        rw [← hev, ← hr]
        rfl
      rw [hcons]
      exact List.perm_append_comm.trans (hdecomp ▸ List.Perm.refl l)
    · rw [if_neg hin] at h
      simp only [Option.some.injEq, Prod.mk.injEq] at h
      obtain ⟨hev, hr⟩ := h
      set l1 := swapL l i n with hl1
      set p := down l1 i n with hp
      set l3 := if p.2 > i then p.1 else up p.1 i with hl3
      have hlen1 : l1.length = l.length := swapL_length ..
      have hlenp : p.1.length = l.length := by rw [hp, down_length, hlen1]
      have hlen3 : l3.length = l.length := by
        rw [hl3]
        split
        · exact hlenp
        · rw [up_length, hlenp]
      have hnth3 : nth l3 n = nth l i := by
        have hdown : nth p.1 n = nth l1 n := nth_down_of_ge _ _ _ (le_refl n)
        have hswap : nth l1 n = nth l i := nth_swapL_snd l (by omega)
        rw [hl3]
        split
        · rw [hdown, hswap]
        · rw [nth_up_of_gt _ _ (by omega), hdown, hswap]
      have hperm3 : l3.Perm l := by
        have hpp : p.1.Perm l1 := down_perm _ _ _ (by omega)
        have hs : l1.Perm l := swapL_perm l hi (by omega)
        rw [hl3]
        split
        · exact hpp.trans hs
        · exact (up_perm _ _ (by omega)).trans (hpp.trans hs)
      refine ⟨by rw [← hev, hnth3], ?_, by rw [← hr, List.length_take]; omega⟩
      have hdecomp : l3 = l3.take n ++ [nth l3 n] := by
        have := take_last_decomp (l := l3) (by omega)
        rw [hlen3] at this
        exact this
      have hcons : (ev :: r) = [nth l3 n] ++ l3.take n := by rw [← hev, ← hr]; rfl
      rw [hcons]
      exact List.perm_append_comm.trans (hdecomp ▸ hperm3)
  · exact absurd h (by simp)

/-- The binary-heap discipline maintained by `container/heap` on the region
`[0, n)` of the slice: no element sorts strictly before its parent. -/
def HeapOn (l : List CacheItem) (n : Nat) : Prop :=
  ∀ c : Nat, 0 < c → c < n → lessI (nth l c) (nth l ((c - 1) / 2)) = false

/-- The heap discipline on the whole slice. -/
def IsHeap (l : List CacheItem) : Prop :=
  HeapOn l l.length

theorem heapOn_root_min {l : List CacheItem} {n : Nat} (h : HeapOn l n) :
    ∀ k, k < n → lessI (nth l k) (nth l 0) = false := by
  intro k
  induction k using Nat.strong_induction_on with
  | _ k ih =>
    intro hk
    cases Nat.eq_zero_or_pos k with
    | inl h0 => rw [h0]; exact lessI_irrefl _
    | inr hpos =>
      have hp : (k - 1) / 2 < k :=
        Nat.lt_of_le_of_lt (Nat.div_le_self _ 2) (by omega)
      exact lessI_neg_trans (h k hpos hk) (ih _ hp (by omega))


theorem up_correct (l : List CacheItem) (n j : Nat) (hn : n ≤ l.length) (hj : j < n)
    (hheap : ∀ c, 0 < c → c < n → c ≠ j →
      lessI (nth l c) (nth l ((c - 1) / 2)) = false)
    (hlower : ∀ c, 0 < c → c < n → (c - 1) / 2 = j →
      lessI (nth l c) (nth l ((j - 1) / 2)) = false) :
    HeapOn (up l j) n := by
  unfold up
  split
  · next hj0 =>
    subst hj0
    intro c hc0 hcn
    exact hheap c hc0 hcn (by omega)
  · next hj0 =>
    split
    · next hlt =>
      set p := (j - 1) / 2 with hp
      have hpj : p < j := by omega
      refine up_correct (swapL l p j) n p (by rw [swapL_length]; exact hn)
        (by omega) ?_ ?_
      · -- heap discipline everywhere except at the new hole `p`
        intro c hc0 hcn hcp
        by_cases hcj : c = j
        · rw [hcj, ← hp, nth_swapL_snd l (by omega),
            nth_swapL_fst l (by omega) (by omega)]
          exact lessI_asymm hlt
        · by_cases hparj : (c - 1) / 2 = j
          · rw [nth_swapL_ne l hcp hcj, hparj, nth_swapL_snd l (by omega)]
            exact hlower c hc0 hcn hparj
          · by_cases hparp : (c - 1) / 2 = p
            · rw [nth_swapL_ne l hcp hcj, hparp,
                nth_swapL_fst l (by omega) (by omega)]
              have h1 := hheap c hc0 hcn hcj
              rw [hparp] at h1
              exact lessI_neg_of_lt_of_neg h1 hlt
            · rw [nth_swapL_ne l hcp hcj, nth_swapL_ne l hparp hparj]
              exact hheap c hc0 hcn hcj
      · -- children of the new hole fit below the new hole's parent
        intro c hc0 hcn hpar
        by_cases hp0 : p = 0
        · have hq : (p - 1) / 2 = p := by omega
          rw [hq, nth_swapL_fst l (by omega) (by omega)]
          by_cases hcj : c = j
          · rw [hcj, nth_swapL_snd l (by omega)]
            exact lessI_asymm hlt
          · rw [nth_swapL_ne l (show c ≠ p by omega) hcj]
            have h1 := hheap c hc0 hcn hcj
            rw [hpar] at h1
            exact lessI_neg_of_lt_of_neg h1 hlt
        · rw [nth_swapL_ne l (show (p - 1) / 2 ≠ p by omega)
            (show (p - 1) / 2 ≠ j by omega)]
          by_cases hcj : c = j
          · rw [hcj, nth_swapL_snd l (by omega)]
            exact hheap p (by omega) (by omega) (by omega)
          · rw [nth_swapL_ne l (show c ≠ p by omega) hcj]
            have h1 := hheap c hc0 hcn hcj
            rw [hpar] at h1
            exact lessI_neg_trans h1 (hheap p (by omega) (by omega) (by omega))
    · next hnlt =>
      intro c hc0 hcn
      by_cases hcj : c = j
      · rw [hcj]
        simpa using hnlt
      · exact hheap c hc0 hcn hcj
termination_by j
decreasing_by
  next hj0 _ =>
    exact Nat.lt_of_le_of_lt (Nat.div_le_self _ 2) (Nat.pred_lt hj0)

theorem pickChild_parent (l : List CacheItem) {i n : Nat} (h : 2 * i + 1 < n) :
    (pickChild l i n - 1) / 2 = i := by
  unfold pickChild
  split <;> omega

theorem pickChild_best (l : List CacheItem) {i n : Nat} (h2 : 2 * i + 1 < n) :
    ∀ c, 0 < c → c < n → (c - 1) / 2 = i → c ≠ pickChild l i n →
      lessI (nth l c) (nth l (pickChild l i n)) = false := by
  intro c hc0 hcn hpar hne
  unfold pickChild at hne ⊢
  revert hne
  split
  · next hcond =>
    intro hne
    have hc : c = 2 * i + 1 := by omega
    rw [hc]
    exact lessI_asymm hcond.2
  · next hcond =>
    intro hne
    have hc : c = 2 * i + 2 := by omega
    rw [hc]
    have hb : ¬ (lessI (nth l (2 * i + 2)) (nth l (2 * i + 1)) = true) := by
      intro hb
      exact hcond ⟨by omega, hb⟩
    simpa using hb

theorem pickChild_stop (l : List CacheItem) {i n : Nat} (h2 : 2 * i + 1 < n)
    (hstop : lessI (nth l (pickChild l i n)) (nth l i) = false) :
    ∀ c, 0 < c → c < n → (c - 1) / 2 = i → lessI (nth l c) (nth l i) = false := by
  intro c hc0 hcn hpar
  by_cases hcp : c = pickChild l i n
  · rw [hcp]
    exact hstop
  · exact lessI_neg_trans (pickChild_best l h2 c hc0 hcn hpar hcp) hstop

theorem down_correct (l : List CacheItem) (n i : Nat) (hn : n ≤ l.length)
    (hin : i < n)
    (hheap : ∀ c, 0 < c → c < n → c ≠ i → (c - 1) / 2 ≠ i →
      lessI (nth l c) (nth l ((c - 1) / 2)) = false)
    (hupper : ∀ c, 0 < c → c < n → (c - 1) / 2 = i → 0 < i →
      lessI (nth l c) (nth l ((i - 1) / 2)) = false) :
    (∀ c, 0 < c → c < n → (c - 1) / 2 ≠ (down l i n).2 → c ≠ (down l i n).2 →
      lessI (nth (down l i n).1 c) (nth (down l i n).1 ((c - 1) / 2)) = false) ∧
    (∀ c, 0 < c → c < n → (c - 1) / 2 = (down l i n).2 →
      lessI (nth (down l i n).1 c) (nth (down l i n).1 (down l i n).2) = false) ∧
    (∀ c, 0 < c → c < n → (c - 1) / 2 = (down l i n).2 → 0 < (down l i n).2 →
      lessI (nth (down l i n).1 c) (nth (down l i n).1 (((down l i n).2 - 1) / 2))
        = false) ∧
    (i < (down l i n).2 →
      lessI (nth (down l i n).1 (down l i n).2)
        (nth (down l i n).1 (((down l i n).2 - 1) / 2)) = false) ∧
    (i ≤ (down l i n).2 ∧ (down l i n).2 < n) ∧
    ((down l i n).2 = i → (down l i n).1 = l) := by
  unfold down
  split
  · next h2 =>
    split
    · next hlt =>
      -- swap with the chosen child and recurse
      have hij := pickChild_gt l i n
      have hjn := pickChild_lt l h2
      have hpar := pickChild_parent l h2
      set j := pickChild l i n with hjdef
      have ih := down_correct (swapL l i j) n j (by rw [swapL_length]; exact hn)
        hjn ?_ ?_
      · obtain ⟨ihA, ihB, ihC, ihD, ihE, ihF⟩ := ih
        refine ⟨ihA, ihB, ihC, ?_, ⟨by omega, ihE.2⟩, by omega⟩
        intro hif
        rcases Nat.lt_or_ge j (down (swapL l i j) j n).2 with hjf | hjf
        · exact ihD hjf
        · have hfj : (down (swapL l i j) j n).2 = j := by omega
          have hl : (down (swapL l i j) j n).1 = swapL l i j := ihF hfj
          rw [hfj, hl, hpar, nth_swapL_snd l (by omega),
            nth_swapL_fst l (by omega) (by omega)]
          exact lessI_asymm hlt
      · -- heap discipline for the recursive call at hole `j`
        intro c hc0 hcn hcj hcpar
        by_cases hci : c = i
        · rw [hci, nth_swapL_fst l (by omega) (by omega)]
          rw [nth_swapL_ne l (show (i - 1) / 2 ≠ i by omega)
            (show (i - 1) / 2 ≠ j by omega)]
          have h0i : 0 < i := by omega
          exact hupper j (by omega) hjn hpar h0i
        · by_cases hpari : (c - 1) / 2 = i
          · rw [nth_swapL_ne l hci hcj, hpari,
              nth_swapL_fst l (by omega) (by omega)]
            exact pickChild_best l h2 c hc0 hcn hpari hcj
          · rw [nth_swapL_ne l hci hcj, nth_swapL_ne l hpari hcpar]
            exact hheap c hc0 hcn hci hpari
      · -- children of `j` fit below `j`'s parent `i`
        intro c hc0 hcn hcpar hj0
        rw [hpar, nth_swapL_fst l (by omega) (by omega)]
        have hcgt : j < c := by omega
        rw [nth_swapL_ne l (by omega) (by omega)]
        have hpari : (c - 1) / 2 ≠ i := by omega
        have h1 := hheap c hc0 hcn (by omega) hpari
        rw [hcpar] at h1
        exact h1
    · next hnlt =>
      -- the chosen child does not sort before the hole: stop
      have hstop : lessI (nth l (pickChild l i n)) (nth l i) = false := by
        simpa using hnlt
      refine ⟨?_, ?_, ?_, by omega, ⟨le_refl i, hin⟩, fun _ => rfl⟩
      · intro c hc0 hcn hcpar hci
        exact hheap c hc0 hcn hci hcpar
      · intro c hc0 hcn hcpar
        exact pickChild_stop l h2 hstop c hc0 hcn hcpar
      · intro c hc0 hcn hcpar h0i
        exact hupper c hc0 hcn hcpar h0i
  · next h2 =>
    -- no children inside the region: stop
    refine ⟨?_, ?_, ?_, by omega, ⟨le_refl i, hin⟩, fun _ => rfl⟩
    · intro c hc0 hcn hcpar hci
      exact hheap c hc0 hcn hci hcpar
    · intro c hc0 hcn hcpar
      omega
    · intro c hc0 hcn hcpar h0i
      omega
termination_by n - i
decreasing_by
  next h2 _ =>
    have h1 := pickChild_gt l i n
    have h3 := pickChild_lt l h2
    omega

theorem nth_append_left (l l2 : List CacheItem) {c : Nat} (hc : c < l.length) :
    nth (l ++ l2) c = nth l c := by
  unfold nth
  rw [List.getD_eq_getElem?_getD, List.getD_eq_getElem?_getD,
    List.getElem?_append_left hc]

theorem nth_take (l : List CacheItem) {n c : Nat} (hc : c < n) :
    nth (l.take n) c = nth l c := by
  unfold nth
  rw [List.getD_eq_getElem?_getD, List.getD_eq_getElem?_getD, List.getElem?_take,
    if_pos hc]

theorem heapOn_take {l : List CacheItem} {n : Nat} (h : HeapOn l n)
    (hn : n ≤ l.length) : IsHeap (l.take n) := by
  intro c hc0 hcn
  rw [List.length_take] at hcn
  have hcn' : c < n := by omega
  have hpar : (c - 1) / 2 < n := by
    have : (c - 1) / 2 ≤ c := Nat.le_trans (Nat.div_le_self _ 2) (by omega)
    omega
  rw [nth_take l hcn', nth_take l hpar]
  exact h c hc0 hcn'

/-- If `down` starts from the root, or strictly lowered its element, the
whole region obeys the heap discipline afterwards. -/
theorem down_heapOn (l : List CacheItem) (n i : Nat) (hn : n ≤ l.length)
    (hin : i < n)
    (hheap : ∀ c, 0 < c → c < n → c ≠ i → (c - 1) / 2 ≠ i →
      lessI (nth l c) (nth l ((c - 1) / 2)) = false)
    (hupper : ∀ c, 0 < c → c < n → (c - 1) / 2 = i → 0 < i →
      lessI (nth l c) (nth l ((i - 1) / 2)) = false)
    (hcond : i = 0 ∨ i < (down l i n).2) : HeapOn (down l i n).1 n := by
  obtain ⟨hA, hB, hC, hD, hE, hF⟩ := down_correct l n i hn hin hheap hupper
  intro c hc0 hcn
  by_cases hpar : (c - 1) / 2 = (down l i n).2
  · rw [hpar]
    exact hB c hc0 hcn hpar
  · by_cases hcf : c = (down l i n).2
    · have hif : i < (down l i n).2 := by
        rcases hcond with h0 | h0
        · omega
        · exact h0
      have := hD hif
      rw [hcf]
      exact this
    · exact hA c hc0 hcn hpar hcf

/-- `container/heap.Push` preserves the heap discipline. -/
theorem heapPush_isHeap {l : List CacheItem} (h : IsHeap l) (x : CacheItem) :
    IsHeap (heapPush l x) := by
  unfold IsHeap
  rw [heapPush_length]
  unfold heapPush
  refine up_correct (l ++ [x]) (l.length + 1) l.length (by simp) (by omega) ?_ ?_
  · intro c hc0 hcn hcj
    have hc : c < l.length := by omega
    have hpar : (c - 1) / 2 < l.length := by
      have : (c - 1) / 2 ≤ c := Nat.le_trans (Nat.div_le_self _ 2) (by omega)
      omega
    rw [nth_append_left l [x] hc, nth_append_left l [x] hpar]
    exact h c hc0 hc
  · intro c hc0 hcn hpar
    omega

/-- `container/heap.Pop` preserves the heap discipline and removes an
element that no remaining element sorts before. -/
theorem heapPop_isHeap {l : List CacheItem} {ev : CacheItem} {r : List CacheItem}
    (h : IsHeap l) (hpop : heapPop l = some (ev, r)) :
    IsHeap r ∧ ∀ o ∈ r, lessI o ev = false := by
  have hspec := heapPop_spec hpop
  obtain ⟨hev, hperm, hlen⟩ := hspec
  constructor
  · unfold heapPop at hpop
    split at hpop
    · exact absurd hpop (by simp)
    · next hne =>
      simp only [Option.some.injEq, Prod.mk.injEq] at hpop
      obtain ⟨hev2, hr⟩ := hpop
      set n := l.length - 1 with hn
      rcases Nat.eq_zero_or_pos n with hn0 | hn0
      · rw [← hr, hn0]
        intro c hc0 hcn
        simp at hcn
      · have hswlen : (swapL l 0 n).length = l.length := swapL_length ..
        have hheapOn : HeapOn (down (swapL l 0 n) 0 n).1 n := by
          refine down_heapOn (swapL l 0 n) n 0 (by omega) (by omega) ?_ ?_
            (Or.inl rfl)
          · intro c hc0 hcn hci hcpar
            have hparpos : 0 < (c - 1) / 2 := by omega
            have hcne : c ≠ n := by omega
            have hparne : (c - 1) / 2 ≠ n := by
              have : (c - 1) / 2 ≤ c - 1 := Nat.div_le_self _ 2
              omega
            rw [nth_swapL_ne l hci hcne, nth_swapL_ne l (by omega) hparne]
            exact h c hc0 (by omega)
          · intro c hc0 hcn hcpar hfalse
            omega
        rw [← hr]
        exact heapOn_take hheapOn (by rw [down_length, hswlen]; omega)
  · intro o ho
    have homem : o ∈ l := hperm.mem_iff.mp (List.mem_cons_of_mem ev ho)
    obtain ⟨k, hk, hko⟩ := List.mem_iff_getElem.mp homem
    have hnth : nth l k = o := by
      unfold nth
      rw [List.getD_eq_getElem l dummyItem hk, hko]
    rw [← hnth, hev]
    exact heapOn_root_min h k hk

/-- `container/heap.Remove` preserves the heap discipline. -/
theorem heapRemove_isHeap {l : List CacheItem} {i : Nat} {ev : CacheItem}
    {r : List CacheItem} (h : IsHeap l) (hrem : heapRemove l i = some (ev, r)) :
    IsHeap r := by
  unfold heapRemove at hrem
  split at hrem
  · next hi =>
    set n := l.length - 1 with hn
    by_cases hin : i = n
    · rw [if_pos hin] at hrem
      simp only [Option.some.injEq, Prod.mk.injEq] at hrem
      rw [← hrem.2]
      refine heapOn_take ?_ (by omega)
      intro c hc0 hcn
      exact h c hc0 (by omega)
    · rw [if_neg hin] at hrem
      simp only [Option.some.injEq, Prod.mk.injEq] at hrem
      have hinlt : i < n := by omega
      have hswlen : (swapL l i n).length = l.length := swapL_length ..
      have hheapD : ∀ c, 0 < c → c < n → c ≠ i → (c - 1) / 2 ≠ i →
          lessI (nth (swapL l i n) c) (nth (swapL l i n) ((c - 1) / 2)) = false := by
        intro c hc0 hcn hci hcpar
        have hparn : (c - 1) / 2 ≠ n := by
          have : (c - 1) / 2 ≤ c - 1 := Nat.div_le_self _ 2
          omega
        rw [nth_swapL_ne l hci (by omega), nth_swapL_ne l hcpar hparn]
        exact h c hc0 (by omega)
      have hupperD : ∀ c, 0 < c → c < n → (c - 1) / 2 = i → 0 < i →
          lessI (nth (swapL l i n) c) (nth (swapL l i n) ((i - 1) / 2)) = false := by
        intro c hc0 hcn hcpar h0i
        have hparn : (i - 1) / 2 ≠ n := by
          have : (i - 1) / 2 ≤ i - 1 := Nat.div_le_self _ 2
          omega
        have hpari : (i - 1) / 2 ≠ i := by omega
        rw [nth_swapL_ne l (by omega) (by omega), nth_swapL_ne l hpari hparn]
        have h1 := h c hc0 (by omega)
        rw [hcpar] at h1
        have h2 := h i h0i (by omega)
        exact lessI_neg_trans h1 h2
      obtain ⟨hA, hB, hC, hD, hE, hF⟩ :=
        down_correct (swapL l i n) n i (by omega) hinlt hheapD hupperD
      rw [← hrem.2]
      split
      · next hgt =>
        refine heapOn_take ?_ (by rw [down_length, hswlen]; omega)
        exact down_heapOn (swapL l i n) n i (by omega) hinlt hheapD hupperD
          (Or.inr hgt)
      · next hngt =>
        have hfi : (down (swapL l i n) i n).2 = i := by
          have := hE.1
          omega
        refine heapOn_take ?_ (by rw [up_length, down_length, hswlen]; omega)
        refine up_correct _ n i (by rw [down_length, hswlen]; omega) hinlt ?_ ?_
        · intro c hc0 hcn hci
          by_cases hpar : (c - 1) / 2 = i
          · rw [hpar]
            have := hB c hc0 hcn (by rw [hfi]; exact hpar)
            rw [hfi] at this
            exact this
          · exact hA c hc0 hcn (by rw [hfi]; exact hpar) (by rw [hfi]; exact hci)
        · intro c hc0 hcn hpar
          rcases Nat.eq_zero_or_pos i with h0 | h0
          · have hpp : (i - 1) / 2 = i := by omega
            rw [hpp]
            have := hB c hc0 hcn (by rw [hfi]; exact hpar)
            rw [hfi] at this
            exact this
          · have := hC c hc0 hcn (by rw [hfi]; exact hpar) (by rw [hfi]; exact h0)
            rw [hfi] at this
            exact this
  · exact absurd hrem (by simp)

theorem lookupItems_mem {l : List (CacheKey × CacheItem)} {k : CacheKey}
    {it : CacheItem} (h : lookupItems l k = some it) : (k, it) ∈ l := by
  induction l with
  | nil => simp [lookupItems] at h
  | cons p t ih =>
    unfold lookupItems at h
    split at h
    · next hp =>
      simp only [Option.some.injEq] at h
      have hpe : p = (k, it) := by
        cases p
        simp_all
      rw [← hpe]
      exact List.mem_cons_self p t
    · exact List.mem_cons_of_mem p (ih h)

theorem lookupItems_insert (l : List (CacheKey × CacheItem)) (k : CacheKey)
    (it : CacheItem) : lookupItems (insertItems l k it) k = some it := by
  induction l with
  | nil => simp [insertItems, lookupItems]
  | cons p t ih =>
    unfold insertItems
    split
    · simp [lookupItems]
    · next hp =>
      unfold lookupItems
      rw [if_neg hp]
      exact ih

theorem lookupItems_insert_ne (l : List (CacheKey × CacheItem)) {k k' : CacheKey}
    (it : CacheItem) (hne : k' ≠ k) :
    lookupItems (insertItems l k it) k' = lookupItems l k' := by
  induction l with
  | nil => simp [insertItems, lookupItems, show ¬ k = k' from fun h => hne h.symm]
  | cons p t ih =>
    unfold insertItems
    split
    · next hp =>
      show (if k = k' then some it else lookupItems t k') = _
      show _ = if p.1 = k' then some p.2 else lookupItems t k'
      rw [if_neg (show ¬ k = k' from fun h => hne h.symm),
        if_neg (show ¬ p.1 = k' by rw [hp]; exact fun h => hne h.symm)]
    · next hp =>
      show (if p.1 = k' then some p.2 else lookupItems (insertItems t k it) k') = _
      show _ = if p.1 = k' then some p.2 else lookupItems t k'
      split
      · rfl
      · exact ih

theorem lookupItems_erase_self {l : List (CacheKey × CacheItem)} {k : CacheKey}
    (hnd : (l.map Prod.fst).Nodup) : lookupItems (eraseItems l k) k = none := by
  induction l with
  | nil => rfl
  | cons p t ih =>
    unfold eraseItems
    split
    · next hp =>
      cases hlook : lookupItems t k with
      | none => rfl
      | some it =>
        have hmem := lookupItems_mem hlook
        have : k ∈ t.map Prod.fst := List.mem_map_of_mem Prod.fst hmem
        rw [List.map_cons, hp] at hnd
        exact absurd this hnd.not_mem
    · next hp =>
      unfold lookupItems
      rw [if_neg hp]
      exact ih (by rw [List.map_cons] at hnd; exact hnd.of_cons)

theorem lookupItems_erase_ne (l : List (CacheKey × CacheItem)) {k k' : CacheKey}
    (hne : k' ≠ k) : lookupItems (eraseItems l k) k' = lookupItems l k' := by
  induction l with
  | nil => rfl
  | cons p t ih =>
    unfold eraseItems
    split
    · next hp =>
      show lookupItems t k' = if p.1 = k' then some p.2 else lookupItems t k'
      rw [if_neg (show ¬ p.1 = k' by rw [hp]; exact fun h => hne h.symm)]
    · next hp =>
      show (if p.1 = k' then some p.2 else lookupItems (eraseItems t k) k') = _
      show _ = if p.1 = k' then some p.2 else lookupItems t k'
      split
      · rfl
      · exact ih

theorem insertItems_length_of_none {l : List (CacheKey × CacheItem)}
    {k : CacheKey} (h : lookupItems l k = none) (it : CacheItem) :
    (insertItems l k it).length = l.length + 1 := by
  induction l with
  | nil => rfl
  | cons p t ih =>
    unfold lookupItems at h
    split at h
    · exact absurd h (by simp)
    · next hp =>
      unfold insertItems
      rw [if_neg hp]
      simp [ih h]

theorem insertItems_length_of_some {l : List (CacheKey × CacheItem)}
    {k : CacheKey} {old : CacheItem} (h : lookupItems l k = some old)
    (it : CacheItem) : (insertItems l k it).length = l.length := by
  induction l with
  | nil => simp [lookupItems] at h
  | cons p t ih =>
    unfold lookupItems at h
    unfold insertItems
    split at h
    · next hp =>
      rw [if_pos hp]
      rfl
    · next hp =>
      rw [if_neg hp]
      simp [ih h]

theorem eraseItems_length_of_some {l : List (CacheKey × CacheItem)}
    {k : CacheKey} {old : CacheItem} (h : lookupItems l k = some old) :
    (eraseItems l k).length + 1 = l.length := by
  induction l with
  | nil => simp [lookupItems] at h
  | cons p t ih =>
    unfold lookupItems at h
    unfold eraseItems
    split at h
    · next hp =>
      rw [if_pos hp]
      rfl
    · next hp =>
      rw [if_neg hp]
      have := ih h
      simp only [List.length_cons]
      omega


theorem insertItems_mem {l : List (CacheKey × CacheItem)} {k : CacheKey}
    {it : CacheItem} {p : CacheKey × CacheItem}
    (hnd : (l.map Prod.fst).Nodup) (h : p ∈ insertItems l k it) :
    p = (k, it) ∨ (p ∈ l ∧ p.1 ≠ k) := by
  induction l with
  | nil =>
    simp [insertItems] at h
    left
    exact h
  | cons q t ih =>
    rw [List.map_cons] at hnd
    unfold insertItems at h
    by_cases hq : q.1 = k
    · rw [if_pos hq] at h
      rcases List.mem_cons.mp h with h1 | h1
      · left
        exact h1
      · right
        refine ⟨List.mem_cons_of_mem q h1, ?_⟩
        intro hpk
        have hmap : p.1 ∈ t.map Prod.fst := List.mem_map_of_mem Prod.fst h1
        rw [hpk, ← hq] at hmap
        exact hnd.not_mem hmap
    · rw [if_neg hq] at h
      rcases List.mem_cons.mp h with h1 | h1
      · right
        refine ⟨by rw [h1]; exact List.mem_cons_self q t, by rw [h1]; exact hq⟩
      · rcases ih hnd.of_cons h1 with h2 | h2
        · left
          exact h2
        · right
          exact ⟨List.mem_cons_of_mem q h2.1, h2.2⟩

theorem eraseItems_sublist (l : List (CacheKey × CacheItem)) (k : CacheKey) :
    (eraseItems l k).Sublist l := by
  induction l with
  | nil => simp [eraseItems]
  | cons q t ih =>
    unfold eraseItems
    split
    · exact List.sublist_cons_self q t
    · exact List.Sublist.cons₂ q ih

theorem eraseItems_mem {l : List (CacheKey × CacheItem)} {k : CacheKey}
    {p : CacheKey × CacheItem} (h : p ∈ eraseItems l k) : p ∈ l :=
  (eraseItems_sublist l k).mem h

theorem eraseItems_mem_ne {l : List (CacheKey × CacheItem)} {k : CacheKey}
    {p : CacheKey × CacheItem} (hnd : (l.map Prod.fst).Nodup)
    (h : p ∈ eraseItems l k) : p.1 ≠ k := by
  induction l with
  | nil => simp [eraseItems] at h
  | cons q t ih =>
    rw [List.map_cons] at hnd
    unfold eraseItems at h
    split at h
    · next hq =>
      intro hpk
      have hmap : p.1 ∈ t.map Prod.fst := List.mem_map_of_mem Prod.fst h
      rw [hpk, ← hq] at hmap
      exact hnd.not_mem hmap
    · next hq =>
      rcases List.mem_cons.mp h with h1 | h1
      · rw [h1]
        exact hq
      · exact ih hnd.of_cons h1

theorem insertItems_keys_mem {l : List (CacheKey × CacheItem)} {k : CacheKey}
    {it : CacheItem} {x : CacheKey}
    (h : x ∈ (insertItems l k it).map Prod.fst) :
    x = k ∨ x ∈ l.map Prod.fst := by
  induction l with
  | nil =>
    simp [insertItems] at h
    left
    exact h
  | cons q t ih =>
    unfold insertItems at h
    split at h
    · rw [List.map_cons] at h
      rcases List.mem_cons.mp h with h1 | h1
      · left
        exact h1
      · right
        rw [List.map_cons]
        exact List.mem_cons_of_mem _ h1
    · rw [List.map_cons] at h
      rcases List.mem_cons.mp h with h1 | h1
      · right
        rw [List.map_cons, h1]
        exact List.mem_cons_self _ _
      · rcases ih h1 with h2 | h2
        · left
          exact h2
        · right
          rw [List.map_cons]
          exact List.mem_cons_of_mem _ h2

theorem insertItems_keys_nodup {l : List (CacheKey × CacheItem)} {k : CacheKey}
    (it : CacheItem) (hnd : (l.map Prod.fst).Nodup) :
    ((insertItems l k it).map Prod.fst).Nodup := by
  induction l with
  | nil => simp [insertItems]
  | cons q t ih =>
    rw [List.map_cons] at hnd
    unfold insertItems
    split
    · next hq =>
      rw [List.map_cons]
      refine List.Nodup.cons ?_ hnd.of_cons
      rw [← hq]
      exact hnd.not_mem
    · next hq =>
      rw [List.map_cons]
      refine List.Nodup.cons ?_ (ih hnd.of_cons)
      intro hmem
      rcases insertItems_keys_mem hmem with h1 | h1
      · exact hq h1
      · exact hnd.not_mem h1

theorem mem_lookupItems {l : List (CacheKey × CacheItem)} {k : CacheKey}
    {it : CacheItem} (hnd : (l.map Prod.fst).Nodup) (h : (k, it) ∈ l) :
    lookupItems l k = some it := by
  induction l with
  | nil => simp at h
  | cons q t ih =>
    rw [List.map_cons] at hnd
    rcases List.mem_cons.mp h with h1 | h1
    · show (if q.1 = k then some q.2 else lookupItems t k) = some it
      rw [← h1]
      simp
    · show (if q.1 = k then some q.2 else lookupItems t k) = some it
      have hqk : q.1 ≠ k := by
        intro hq
        have : k ∈ t.map Prod.fst := List.mem_map_of_mem Prod.fst h1
        rw [← hq] at this
        exact hnd.not_mem this
      rw [if_neg hqk]
      exact ih hnd.of_cons h1

/-- Two members of a slice with distinct ids that share an id are equal. -/
theorem id_unique {l : List CacheItem} (hnd : (l.map CacheItem.id).Nodup)
    {a b : CacheItem} (ha : a ∈ l) (hb : b ∈ l) (hid : a.id = b.id) : a = b := by
  induction l with
  | nil => simp at ha
  | cons q t ih =>
    rw [List.map_cons] at hnd
    rcases List.mem_cons.mp ha with h1 | h1 <;> rcases List.mem_cons.mp hb with h2 | h2
    · rw [h1, h2]
    · exfalso
      have hmm : b.id ∈ t.map CacheItem.id := List.mem_map_of_mem CacheItem.id h2
      rw [← hid, h1] at hmm
      exact hnd.not_mem hmm
    · exfalso
      have hmm : a.id ∈ t.map CacheItem.id := List.mem_map_of_mem CacheItem.id h1
      rw [hid, h2] at hmm
      exact hnd.not_mem hmm
    · exact ih hnd.of_cons h1 h2

/-- The representation invariant of the cache, as maintained by the source
between operations: the live count equals the number of map entries and the
number of heap entries, the map and the heap hold exactly the same items
(the map keyed by the item's own key), keys and item identities are unique,
all allocated ids are below the allocator counter, and the slice obeys the
heap discipline. -/
structure CacheInv (c : Cache) : Prop where
  hsize : c.currSize = (c.pq.length : Int)
  hlen : c.items.length = c.pq.length
  hlook : ∀ it ∈ c.pq, lookupItems c.items it.key = some it
  hmem : ∀ p ∈ c.items, p.2 ∈ c.pq ∧ p.2.key = p.1
  hkeys : (c.items.map Prod.fst).Nodup
  hids : (c.pq.map CacheItem.id).Nodup
  hfresh : ∀ it ∈ c.pq, it.id < c.nextId
  hheap : IsHeap c.pq

theorem inv_init (m : Int) : CacheInv (initCache m) := by
  refine ⟨rfl, rfl, ?_, ?_, ?_, ?_, ?_, ?_⟩ <;> simp [initCache]
  intro c hc0 hcn
  simp [initCache] at hcn

theorem perm_cons_facts {l r : List CacheItem} {a : CacheItem}
    (hnd : (l.map CacheItem.id).Nodup) (hperm : (a :: r).Perm l) :
    a ∉ r ∧ (r.map CacheItem.id).Nodup ∧ ∀ x ∈ r, x ∈ l := by
  have h2 : ((a :: r).map CacheItem.id).Nodup :=
    ((hperm.map CacheItem.id).nodup_iff).mpr hnd
  rw [List.map_cons] at h2
  refine ⟨?_, h2.of_cons, ?_⟩
  · intro hmem
    exact h2.not_mem (List.mem_map_of_mem CacheItem.id hmem)
  · intro x hx
    exact hperm.subset (List.mem_cons_of_mem a hx)

/-- Removing the popped item from map, heap and count preserves the
invariant (the common body of the eviction-loop step). -/
theorem pop_update_inv {c : Cache} {ev : CacheItem} {pq' : List CacheItem}
    (hI : CacheInv c) (hpop : heapPop c.pq = some (ev, pq')) :
    CacheInv { c with
               pq := pq', items := eraseItems c.items ev.key,
               currSize := c.currSize - 1,
               evictLog := logEvict c ev.key ev.value } := by
  obtain ⟨hev, hperm, hlen1⟩ := heapPop_spec hpop
  obtain ⟨hnot, hids', hsub⟩ := perm_cons_facts hI.hids hperm
  have hevmem : ev ∈ c.pq := hperm.subset (List.mem_cons_self ev pq')
  have hlookev : lookupItems c.items ev.key = some ev := hI.hlook ev hevmem
  refine ⟨?_, ?_, ?_, ?_, ?_, hids', ?_, (heapPop_isHeap hI.hheap hpop).1⟩
  · have := hI.hsize
    simp only []
    omega
  · have h1 := eraseItems_length_of_some hlookev
    have h2 := hI.hlen
    simp only []
    omega
  · intro x hx
    have hxpq : x ∈ c.pq := hsub x hx
    have hxkey : x.key ≠ ev.key := by
      intro hk
      have h1 := hI.hlook x hxpq
      rw [hk, hlookev] at h1
      have : x = ev := by injection h1.symm
      rw [this] at hx
      exact hnot hx
    simp only []
    rw [lookupItems_erase_ne c.items hxkey]
    exact hI.hlook x hxpq
  · intro p hp
    simp only [] at hp
    have hpmem : p ∈ c.items := eraseItems_mem hp
    have hpne : p.1 ≠ ev.key := eraseItems_mem_ne hI.hkeys hp
    obtain ⟨hppq, hpkey⟩ := hI.hmem p hpmem
    have : p.2 ∈ ev :: pq' := hperm.symm.subset hppq
    rcases List.mem_cons.mp this with h1 | h1
    · exact absurd (by rw [← hpkey, h1]) hpne
    · exact ⟨h1, hpkey⟩
  · simp only []
    exact List.Nodup.sublist ((eraseItems_sublist c.items ev.key).map Prod.fst)
      hI.hkeys
  · intro x hx
    exact hI.hfresh x (hsub x hx)

theorem evictLoop_inv {c c' : Cache} (hI : CacheInv c) (h : evictLoop c = .ok c') :
    CacheInv c' := by
  unfold evictLoop at h
  split at h
  · split at h
    · exact absurd h (by simp)
    · next ev pq' hpop =>
      exact evictLoop_inv (pop_update_inv hI hpop) h
  · injection h with h
    rw [← h]
    exact hI
termination_by c.pq.length
decreasing_by
  next hpop =>
    exact heapPop_length hpop

theorem evictLoop_le {c c' : Cache} (h : evictLoop c = .ok c') :
    c'.currSize ≤ c'.maxSize ∧ c'.maxSize = c.maxSize ∧
      c'.onEvictSet = c.onEvictSet := by
  unfold evictLoop at h
  split at h
  · split at h
    · exact absurd h (by simp)
    · next ev pq' hpop =>
      obtain ⟨h1, h2, h3⟩ := evictLoop_le h
      exact ⟨h1, h2, h3⟩
  · next hgt =>
    injection h with h
    rw [← h]
    exact ⟨by omega, rfl, rfl⟩
termination_by c.pq.length
decreasing_by
  next hpop =>
    exact heapPop_length hpop

theorem evictLoop_progress {c : Cache} (hI : CacheInv c) (hmax : 0 ≤ c.maxSize) :
    ∃ c', evictLoop c = .ok c' := by
  unfold evictLoop
  split
  · next hgt =>
    have hlen : c.pq.length ≠ 0 := by
      have := hI.hsize
      omega
    have hsome : ∃ ev pq', heapPop c.pq = some (ev, pq') := by
      unfold heapPop
      rw [if_neg hlen]
      exact ⟨_, _, rfl⟩
    obtain ⟨ev, pq', hpop⟩ := hsome
    rw [hpop]
    exact evictLoop_progress (pop_update_inv hI hpop) hmax
  · exact ⟨c, rfl⟩
termination_by c.pq.length
decreasing_by
  next hpop =>
    exact heapPop_length hpop

/-- Under the invariant, the position computed for `heap.Remove` (modelling
the stored `index` field) is in range and holds exactly the looked-up item. -/
theorem findIdx_spec {c : Cache} {k : CacheKey} {old : CacheItem}
    (hI : CacheInv c) (hlook : lookupItems c.items k = some old) :
    c.pq.findIdx (fun it => it.id = old.id) < c.pq.length ∧
      nth c.pq (c.pq.findIdx (fun it => it.id = old.id)) = old := by
  have hmem : (k, old) ∈ c.items := lookupItems_mem hlook
  have hold : old ∈ c.pq := (hI.hmem (k, old) hmem).1
  have hex : ∃ x ∈ c.pq, (fun it : CacheItem => decide (it.id = old.id)) x = true :=
    ⟨old, hold, by simp⟩
  have hlt : c.pq.findIdx (fun it => it.id = old.id) < c.pq.length :=
    List.findIdx_lt_length_of_exists hex
  refine ⟨hlt, ?_⟩
  have hp := List.findIdx_getElem (p := fun it : CacheItem => decide (it.id = old.id))
    (w := hlt)
  have hid : (c.pq[c.pq.findIdx (fun it => it.id = old.id)]).id = old.id := by
    simpa using hp
  have hgm : c.pq[c.pq.findIdx (fun it => it.id = old.id)] ∈ c.pq :=
    List.getElem_mem hlt
  have heq := id_unique hI.hids hgm hold hid
  unfold nth
  rw [List.getD_eq_getElem c.pq dummyItem hlt]
  exact heq

theorem old_key {c : Cache} {k : CacheKey} {old : CacheItem}
    (hI : CacheInv c) (hlook : lookupItems c.items k = some old) : old.key = k :=
  (hI.hmem (k, old) (lookupItems_mem hlook)).2

/-- The insertion phase of `SetWithTTL` preserves the invariant. -/
theorem setInsert_inv {c : Cache} {k : CacheKey} {v : CacheValue} {ttl now : Int}
    {c2 : Cache} (hI : CacheInv c) (h : setInsert c k v ttl now = .ok c2) :
    CacheInv c2 := by
  unfold setInsert at h
  split at h
  · next old hlookold =>
    split at h
    · exact absurd h (by simp)
    · next rem pq0 hrem =>
      simp only [Except.ok.injEq] at h
      obtain ⟨hfidx, hfnth⟩ := findIdx_spec hI hlookold
      obtain ⟨hrev, hrperm, hrlen⟩ := heapRemove_spec hrem
      have hremold : rem = old := by rw [hrev, hfnth]
      rw [hremold] at hrperm
      obtain ⟨hnot, hids0, hsub0⟩ := perm_cons_facts hI.hids hrperm
      have holdkey : old.key = k := old_key hI hlookold
      rw [← h]
      set it0 := madeItem c k v ttl now with hit0
      have hpushperm := heapPush_perm pq0 it0
      refine ⟨?_, ?_, ?_, ?_, ?_, ?_, ?_, ?_⟩
      · have h1 := hI.hsize
        have h2 := heapPush_length pq0 it0
        simp only [h2]
        omega
      · have h1 := insertItems_length_of_some hlookold it0
        have h2 := heapPush_length pq0 it0
        simp only [h1, h2]
        have h3 := hI.hlen
        omega
      · intro x hx
        have hx1 : x ∈ it0 :: pq0 := hpushperm.subset hx
        rcases List.mem_cons.mp hx1 with h1 | h1
        · rw [h1]
          simp only [hit0, madeItem]
          exact lookupItems_insert c.items k it0
        · have hxpq : x ∈ c.pq := hsub0 x h1
          have hxk : x.key ≠ k := by
            intro hk
            have h2 := hI.hlook x hxpq
            rw [hk, hlookold] at h2
            have : x = old := by injection h2.symm
            rw [this] at h1
            exact hnot h1
          simp only []
          rw [lookupItems_insert_ne c.items it0 hxk]
          exact hI.hlook x hxpq
      · intro p hp
        simp only [] at hp
        rcases insertItems_mem hI.hkeys hp with h1 | ⟨h1, h2⟩
        · rw [h1]
          exact ⟨hpushperm.symm.subset (List.mem_cons_self it0 pq0), rfl⟩
        · obtain ⟨hppq, hpkey⟩ := hI.hmem p h1
          have hp2 : p.2 ∈ old :: pq0 := hrperm.symm.subset hppq
          rcases List.mem_cons.mp hp2 with h3 | h3
          · exact absurd (by rw [← hpkey, h3, holdkey]) h2
          · exact ⟨hpushperm.symm.subset (List.mem_cons_of_mem it0 h3), hpkey⟩
      · exact insertItems_keys_nodup _ hI.hkeys
      · have h1 : ((it0 :: pq0).map CacheItem.id).Nodup := by
          rw [List.map_cons]
          refine List.Nodup.cons ?_ hids0
          intro hmem
          obtain ⟨y, hy, hyid⟩ := List.mem_map.mp hmem
          have := hI.hfresh y (hsub0 y hy)
          rw [hyid] at this
          simp [hit0, madeItem] at this
        exact ((hpushperm.map CacheItem.id).nodup_iff).mpr h1
      · intro x hx
        rcases List.mem_cons.mp (hpushperm.subset hx) with h1 | h1
        · rw [h1]
          simp [hit0, madeItem]
        · have := hI.hfresh x (hsub0 x h1)
          simp only []
          omega
      · exact heapPush_isHeap (heapRemove_isHeap hI.hheap hrem) it0
  · next hlooknone =>
    simp only [Except.ok.injEq] at h
    rw [← h]
    set it0 := madeItem c k v ttl now with hit0
    have hpushperm := heapPush_perm c.pq it0
    refine ⟨?_, ?_, ?_, ?_, ?_, ?_, ?_, ?_⟩
    · have h1 := hI.hsize
      have h2 := heapPush_length c.pq it0
      simp only [h2]
      omega
    · have h1 := insertItems_length_of_none hlooknone it0
      have h2 := heapPush_length c.pq it0
      simp only [h1, h2]
      have h3 := hI.hlen
      omega
    · intro x hx
      have hx1 : x ∈ it0 :: c.pq := hpushperm.subset hx
      rcases List.mem_cons.mp hx1 with h1 | h1
      · rw [h1]
        simp only [hit0, madeItem]
        exact lookupItems_insert c.items k it0
      · have hxk : x.key ≠ k := by
          intro hk
          have h2 := hI.hlook x h1
          rw [hk, hlooknone] at h2
          exact absurd h2 (by simp)
        simp only []
        rw [lookupItems_insert_ne c.items it0 hxk]
        exact hI.hlook x h1
    · intro p hp
      simp only [] at hp
      rcases insertItems_mem hI.hkeys hp with h1 | ⟨h1, h2⟩
      · rw [h1]
        exact ⟨hpushperm.symm.subset (List.mem_cons_self it0 c.pq), rfl⟩
      · obtain ⟨hppq, hpkey⟩ := hI.hmem p h1
        exact ⟨hpushperm.symm.subset (List.mem_cons_of_mem it0 hppq), hpkey⟩
    · exact insertItems_keys_nodup _ hI.hkeys
    · have h1 : ((it0 :: c.pq).map CacheItem.id).Nodup := by
        rw [List.map_cons]
        refine List.Nodup.cons ?_ hI.hids
        intro hmem
        obtain ⟨y, hy, hyid⟩ := List.mem_map.mp hmem
        have := hI.hfresh y hy
        rw [hyid] at this
        simp [hit0, madeItem] at this
      exact ((hpushperm.map CacheItem.id).nodup_iff).mpr h1
    · intro x hx
      rcases List.mem_cons.mp (hpushperm.subset hx) with h1 | h1
      · rw [h1]
        simp [hit0, madeItem]
      · have := hI.hfresh x h1
        simp only []
        omega
    · exact heapPush_isHeap hI.hheap it0

/-- The expiry-goroutine body preserves the invariant. -/
theorem expireTask_inv {c : Cache} {k : CacheKey} {now : Int} {c' : Cache}
    (hI : CacheInv c) (h : expireTask c k now = .ok c') : CacheInv c' := by
  unfold expireTask at h
  split at h
  · next old hlookold =>
    split at h
    · split at h
      · exact absurd h (by simp)
      · next rem pq0 hrem =>
        simp only [Except.ok.injEq] at h
        obtain ⟨hfidx, hfnth⟩ := findIdx_spec hI hlookold
        obtain ⟨hrev, hrperm, hrlen⟩ := heapRemove_spec hrem
        have hremold : rem = old := by rw [hrev, hfnth]
        rw [hremold] at hrperm
        obtain ⟨hnot, hids0, hsub0⟩ := perm_cons_facts hI.hids hrperm
        have holdkey : old.key = k := old_key hI hlookold
        rw [← h]
        refine ⟨?_, ?_, ?_, ?_, ?_, hids0, ?_, heapRemove_isHeap hI.hheap hrem⟩
        · have h1 := hI.hsize
          simp only []
          omega
        · have h1 := eraseItems_length_of_some hlookold
          have h2 := hI.hlen
          simp only []
          omega
        · intro x hx
          have hxpq : x ∈ c.pq := hsub0 x hx
          have hxk : x.key ≠ k := by
            intro hk
            have h2 := hI.hlook x hxpq
            rw [hk, hlookold] at h2
            have : x = old := by injection h2.symm
            rw [this] at hx
            exact hnot hx
          simp only []
          rw [lookupItems_erase_ne c.items hxk]
          exact hI.hlook x hxpq
        · intro p hp
          simp only [] at hp
          have hpmem : p ∈ c.items := eraseItems_mem hp
          have hpne : p.1 ≠ k := eraseItems_mem_ne hI.hkeys hp
          obtain ⟨hppq, hpkey⟩ := hI.hmem p hpmem
          have hp2 : p.2 ∈ old :: pq0 := hrperm.symm.subset hppq
          rcases List.mem_cons.mp hp2 with h3 | h3
          · exact absurd (by rw [← hpkey, h3, holdkey]) hpne
          · exact ⟨h3, hpkey⟩
        · simp only []
          exact List.Nodup.sublist ((eraseItems_sublist c.items k).map Prod.fst)
            hI.hkeys
        · intro x hx
          exact hI.hfresh x (hsub0 x hx)
    · injection h with h
      rw [← h]
      exact hI
  · injection h with h
    rw [← h]
    exact hI

/-- `SetWithTTL` preserves the invariant. -/
theorem setWithTTL_inv {c : Cache} {k : CacheKey} {v : CacheValue}
    {ttl now : Int} {c' : Cache} (hI : CacheInv c)
    (h : c.setWithTTL k v ttl now = .ok c') : CacheInv c' := by
  unfold Cache.setWithTTL at h
  split at h
  · exact absurd h (by simp)
  · next c2 hins =>
    exact evictLoop_inv (setInsert_inv hI hins) h

/-- The cache states reachable from a freshly constructed cache through the
operations the source performs: writes and expiry-goroutine bodies
(`Get` does not modify the state). -/
inductive Reachable : Cache → Prop where
  | init (maxSize : Int) : Reachable (initCache maxSize)
  | set {c c' : Cache} (k : CacheKey) (v : CacheValue) (ttl now : Int) :
      Reachable c → c.setWithTTL k v ttl now = .ok c' → Reachable c'
  | expire {c c' : Cache} (k : CacheKey) (now : Int) :
      Reachable c → expireTask c k now = .ok c' → Reachable c'

theorem reachable_inv {c : Cache} (h : Reachable c) : CacheInv c := by
  induction h with
  | init m => exact inv_init m
  | set k v ttl now _ hok ih => exact setWithTTL_inv ih hok
  | expire k now _ hok ih => exact expireTask_inv ih hok

theorem get_state (c : Cache) (k : CacheKey) (now : Int) : (c.get k now).2 = c := by
  unfold Cache.get
  split
  · rfl
  · split <;> rfl

theorem get_hit {c : Cache} {k : CacheKey} {it : CacheItem} {now : Int}
    (hlook : lookupItems c.items k = some it) (h : ¬ it.expiry < now) :
    (c.get k now).1 = (it.value, true) := by
  unfold Cache.get
  rw [hlook]
  dsimp only
  rw [if_neg h]

theorem get_miss_expired {c : Cache} {k : CacheKey} {it : CacheItem} {now : Int}
    (hlook : lookupItems c.items k = some it) (h : it.expiry < now) :
    (c.get k now).1 = (⟨0, 0⟩, false) := by
  unfold Cache.get
  rw [hlook]
  dsimp only
  rw [if_pos h]

theorem get_found_iff {c : Cache} {k : CacheKey} {it : CacheItem} {now : Int}
    (hlook : lookupItems c.items k = some it) :
    (c.get k now).1.2 = true ↔ now ≤ it.expiry := by
  unfold Cache.get
  rw [hlook]
  dsimp only
  split
  · next h =>
    simp only [Bool.false_eq_true, false_iff]
    omega
  · next h =>
    simp only [true_iff]
    omega

theorem setInsert_fields {c : Cache} {k : CacheKey} {v : CacheValue}
    {ttl now : Int} {c2 : Cache} (h : setInsert c k v ttl now = .ok c2) :
    c2.maxSize = c.maxSize ∧ c2.onEvictSet = c.onEvictSet ∧
      c2.evictLog = c.evictLog ∧
      lookupItems c2.items k = some (madeItem c k v ttl now) ∧
      c2.currSize ≤ c.currSize + 1 := by
  unfold setInsert at h
  split at h
  · split at h
    · exact absurd h (by simp)
    · simp only [Except.ok.injEq] at h
      rw [← h]
      refine ⟨rfl, rfl, rfl, lookupItems_insert _ _ _, by simp only []; omega⟩
  · simp only [Except.ok.injEq] at h
    rw [← h]
    refine ⟨rfl, rfl, rfl, lookupItems_insert _ _ _, by simp only []; omega⟩

theorem heapRemove_isSome {l : List CacheItem} {i : Nat} (h : i < l.length) :
    ∃ p, heapRemove l i = some p := by
  cases hrem : heapRemove l i with
  | none =>
    exfalso
    unfold heapRemove at hrem
    rw [if_pos h] at hrem
    by_cases hin : i = l.length - 1
    · rw [if_pos hin] at hrem
      exact absurd hrem (by simp)
    · rw [if_neg hin] at hrem
      exact absurd hrem (by simp)
  | some p => exact ⟨p, rfl⟩

theorem setInsert_progress {c : Cache} (k : CacheKey) (v : CacheValue)
    (ttl now : Int) (hI : CacheInv c) : ∃ c2, setInsert c k v ttl now = .ok c2 := by
  unfold setInsert
  split
  · next old hlook =>
    obtain ⟨hfidx, _⟩ := findIdx_spec hI hlook
    obtain ⟨p, hp⟩ := heapRemove_isSome hfidx
    rw [hp]
    exact ⟨_, rfl⟩
  · exact ⟨_, rfl⟩

theorem setWithTTL_progress {c : Cache} (k : CacheKey) (v : CacheValue)
    (ttl now : Int) (hI : CacheInv c) (hmax : 0 ≤ c.maxSize) :
    ∃ c', c.setWithTTL k v ttl now = .ok c' := by
  obtain ⟨c2, h2⟩ := setInsert_progress k v ttl now hI
  have hI2 := setInsert_inv hI h2
  have hmax2 : 0 ≤ c2.maxSize := by
    rw [(setInsert_fields h2).1]
    exact hmax
  obtain ⟨c', h'⟩ := evictLoop_progress hI2 hmax2
  refine ⟨c', ?_⟩
  unfold Cache.setWithTTL
  rw [h2]
  exact h'

theorem evictLoop_lookup {c c' : Cache} {k : CacheKey} {it : CacheItem}
    (hI : CacheInv c) (h : evictLoop c = .ok c')
    (hl : lookupItems c'.items k = some it) : lookupItems c.items k = some it := by
  unfold evictLoop at h
  split at h
  · split at h
    · exact absurd h (by simp)
    · next ev pq' hpop =>
      have hrec := evictLoop_lookup (pop_update_inv hI hpop) h hl
      simp only [] at hrec
      by_cases hk : k = ev.key
      · rw [hk, lookupItems_erase_self hI.hkeys] at hrec
        exact absurd hrec (by simp)
      · rw [lookupItems_erase_ne c.items hk] at hrec
        exact hrec
  · injection h with h
    rw [h]
    exact hl
termination_by c.pq.length
decreasing_by
  next hpop =>
    exact heapPop_length hpop

/-- If a `SetWithTTL` call completes and the key is still present, the
stored entry is exactly the one this call allocated (expiry `now + ttl`,
creation timestamp `now`). -/
theorem setWithTTL_lookup {c : Cache} {k : CacheKey} {v : CacheValue}
    {ttl now : Int} {c' : Cache} {it : CacheItem} (hI : CacheInv c)
    (h : c.setWithTTL k v ttl now = .ok c')
    (hl : lookupItems c'.items k = some it) : it = madeItem c k v ttl now := by
  unfold Cache.setWithTTL at h
  split at h
  · exact absurd h (by simp)
  · next c2 hins =>
    have hI2 := setInsert_inv hI hins
    have h1 := evictLoop_lookup hI2 h hl
    have h2 := (setInsert_fields hins).2.2.2.1
    rw [h1] at h2
    injection h2

/-- The eviction loop is the iteration of `evictStep` while over capacity. -/
theorem evictLoop_step (c : Cache) (h : c.currSize > c.maxSize) :
    evictLoop c = (evictStep c).bind evictLoop := by
  cases hpop : heapPop c.pq with
  | none =>
    rw [evictLoop, if_pos h, hpop]
    unfold evictStep
    rw [hpop]
    rfl
  | some p =>
    obtain ⟨ev, pq2⟩ := p
    rw [evictLoop, if_pos h, hpop]
    unfold evictStep
    rw [hpop]
    rfl

theorem insertMiss_keys_mem {l : List (String × Inventory)} {k : String}
    {v : Inventory} {x : String} (h : x ∈ (insertMiss l k v).map Prod.fst) :
    x = k ∨ x ∈ l.map Prod.fst := by
  induction l with
  | nil =>
    simp [insertMiss] at h
    left
    exact h
  | cons q t ih =>
    unfold insertMiss at h
    split at h
    · rw [List.map_cons] at h
      rcases List.mem_cons.mp h with h1 | h1
      · left
        exact h1
      · right
        rw [List.map_cons]
        exact List.mem_cons_of_mem _ h1
    · rw [List.map_cons] at h
      rcases List.mem_cons.mp h with h1 | h1
      · right
        rw [List.map_cons, h1]
        exact List.mem_cons_self _ _
      · rcases ih h1 with h2 | h2
        · left
          exact h2
        · right
          rw [List.map_cons]
          exact List.mem_cons_of_mem _ h2

theorem insertMiss_keys_nodup {l : List (String × Inventory)} {k : String}
    (v : Inventory) (hnd : (l.map Prod.fst).Nodup) :
    ((insertMiss l k v).map Prod.fst).Nodup := by
  induction l with
  | nil => simp [insertMiss]
  | cons q t ih =>
    rw [List.map_cons] at hnd
    unfold insertMiss
    split
    · next hq =>
      rw [List.map_cons]
      refine List.Nodup.cons ?_ hnd.of_cons
      rw [← hq]
      exact hnd.not_mem
    · next hq =>
      rw [List.map_cons]
      refine List.Nodup.cons ?_ (ih hnd.of_cons)
      intro hmem
      rcases insertMiss_keys_mem hmem with h1 | h1
      · exact hq h1
      · exact hnd.not_mem h1

/-- The miss map built by the cache-check loop has one entry per
identifier: deduplication is by identifier alone. -/
theorem collectRows_keys_nodup (c : Cache) (rows : List Inventory) (now : Int) :
    (((collectRows c rows now).2).map Prod.fst).Nodup := by
  unfold collectRows
  have haux : ∀ (rs : List Inventory) (acc : List EmissionData × List (String × Inventory)),
      (acc.2.map Prod.fst).Nodup →
      (((rs.foldl (fun acc row =>
        let key : CacheKey := ⟨row.inventoryID, row.utcDatetime⟩
        let r := (c.get key now).1
        if r.2 then (acc.1 ++ [⟨key.inventoryID, r.1.emissions⟩], acc.2)
        else (acc.1, insertMiss acc.2 row.inventoryID row)) acc).2).map Prod.fst).Nodup := by
    intro rs
    induction rs with
    | nil => intro acc h; exact h
    | cons row t ih =>
      intro acc h
      simp only [List.foldl_cons]
      split
      · exact ih _ h
      · exact ih _ (insertMiss_keys_nodup row h)
  exact haux rows ([], []) (by simp)

/-- Fuel-indexed structural mirror of `up`, used to evaluate concrete
states (the well-founded original does not reduce in the kernel). -/
def upF : Nat → List CacheItem → Nat → List CacheItem
  | 0, l, _ => l
  | fuel + 1, l, j =>
    if j = 0 then l
    else if lessI (nth l j) (nth l ((j - 1) / 2)) then
      upF fuel (swapL l ((j - 1) / 2) j) ((j - 1) / 2)
    else l

theorem up_eq_upF : ∀ (fuel : Nat) (l : List CacheItem) (j : Nat), j < fuel →
    up l j = upF fuel l j := by
  intro fuel
  induction fuel with
  | zero => intro l j h; omega
  | succ fuel ih =>
    intro l j h
    unfold up upF
    split
    · rfl
    · next hj =>
      split
      · have hp : (j - 1) / 2 < j :=
          Nat.lt_of_le_of_lt (Nat.div_le_self _ 2) (Nat.pred_lt hj)
        exact ih _ _ (by omega)
      · rfl

/-- Fuel-indexed structural mirror of `down`. -/
def downF : Nat → List CacheItem → Nat → Nat → List CacheItem × Nat
  | 0, l, i, _ => (l, i)
  | fuel + 1, l, i, n =>
    if 2 * i + 1 < n then
      if lessI (nth l (pickChild l i n)) (nth l i) then
        downF fuel (swapL l i (pickChild l i n)) (pickChild l i n) n
      else (l, i)
    else (l, i)

theorem down_eq_downF : ∀ (fuel : Nat) (l : List CacheItem) (i n : Nat),
    n - i < fuel → down l i n = downF fuel l i n := by
  intro fuel
  induction fuel with
  | zero => intro l i n h; omega
  | succ fuel ih =>
    intro l i n h
    unfold down downF
    split
    · next h2 =>
      split
      · have hgt := pickChild_gt l i n
        have hlt := pickChild_lt l h2
        exact ih _ _ _ (by omega)
      · rfl
    · rfl

def heapPushF (l : List CacheItem) (x : CacheItem) : List CacheItem :=
  upF (l.length + 1) (l ++ [x]) l.length

theorem heapPush_eq_F (l : List CacheItem) (x : CacheItem) :
    heapPush l x = heapPushF l x :=
  up_eq_upF (l.length + 1) (l ++ [x]) l.length (by omega)

def heapPopF (l : List CacheItem) : Option (CacheItem × List CacheItem) :=
  if l.length = 0 then none
  else
    let n := l.length - 1
    let l2 := (downF (n + 1) (swapL l 0 n) 0 n).1
    some (nth l2 n, l2.take n)

theorem heapPop_eq_F (l : List CacheItem) : heapPop l = heapPopF l := by
  simp only [heapPop, heapPopF]
  rw [down_eq_downF (l.length - 1 + 1) _ 0 (l.length - 1) (by omega)]

def heapRemoveF (l : List CacheItem) (i : Nat) :
    Option (CacheItem × List CacheItem) :=
  if i < l.length then
    let n := l.length - 1
    if i = n then some (nth l n, l.take n)
    else
      let l1 := swapL l i n
      let p := downF (n + 1) l1 i n
      let l3 := if p.2 > i then p.1 else upF (i + 1) p.1 i
      some (nth l3 n, l3.take n)
  else none

theorem heapRemove_eq_F (l : List CacheItem) (i : Nat) :
    heapRemove l i = heapRemoveF l i := by
  simp only [heapRemove, heapRemoveF]
  rw [down_eq_downF (l.length - 1 + 1) _ i (l.length - 1) (by omega),
    up_eq_upF (i + 1) _ i (by omega)]

def setInsertF (c : Cache) (k : CacheKey) (v : CacheValue) (ttl now : Int) :
    Except Unit Cache :=
  match lookupItems c.items k with
  | some old =>
      match heapRemoveF c.pq (c.pq.findIdx (fun it => it.id = old.id)) with
      | none => .error ()
      | some (_, pq') =>
          .ok { c with
                  items := insertItems c.items k (madeItem c k v ttl now),
                  pq := heapPushF pq' (madeItem c k v ttl now),
                  currSize := c.currSize - 1 + 1,
                  nextId := c.nextId + 1 }
  | none =>
      .ok { c with
              items := insertItems c.items k (madeItem c k v ttl now),
              pq := heapPushF c.pq (madeItem c k v ttl now),
              currSize := c.currSize + 1,
              nextId := c.nextId + 1 }

theorem setInsert_eq_F (c : Cache) (k : CacheKey) (v : CacheValue)
    (ttl now : Int) : setInsert c k v ttl now = setInsertF c k v ttl now := by
  unfold setInsert setInsertF
  simp only [heapRemove_eq_F, heapPush_eq_F]

def evictLoopF : Nat → Cache → Except Unit Cache
  | 0, _ => .error ()
  | fuel + 1, c =>
    if c.currSize > c.maxSize then
      match heapPopF c.pq with
      | none => .error ()
      | some (ev, pq') =>
          evictLoopF fuel
            { c with
                pq := pq', items := eraseItems c.items ev.key,
                currSize := c.currSize - 1,
                evictLog := logEvict c ev.key ev.value }
    else .ok c

theorem evictLoop_eq_F : ∀ (fuel : Nat) (c : Cache), c.pq.length < fuel →
    evictLoop c = evictLoopF fuel c := by
  intro fuel
  induction fuel with
  | zero => intro c h; omega
  | succ fuel ih =>
    intro c h
    rw [evictLoop]
    unfold evictLoopF
    split
    · rw [← heapPop_eq_F]
      cases hpop : heapPop c.pq with
      | none => rfl
      | some p =>
        obtain ⟨ev, pq'⟩ := p
        apply ih
        have := heapPop_length hpop
        simp only []
        omega
    · rfl

def setWithTTLF (c : Cache) (k : CacheKey) (v : CacheValue) (ttl now : Int) :
    Except Unit Cache :=
  match setInsertF c k v ttl now with
  | .error e => .error e
  | .ok c2 => evictLoopF (c2.pq.length + 1) c2

theorem setWithTTL_eq_F (c : Cache) (k : CacheKey) (v : CacheValue)
    (ttl now : Int) : c.setWithTTL k v ttl now = setWithTTLF c k v ttl now := by
  unfold Cache.setWithTTL setWithTTLF
  rw [← setInsert_eq_F]
  split
  · rfl
  · exact evictLoop_eq_F _ _ (by omega)

def expireTaskF (c : Cache) (k : CacheKey) (now : Int) : Except Unit Cache :=
  match lookupItems c.items k with
  | some it =>
      if it.expiry < now then
        match heapRemoveF c.pq (c.pq.findIdx (fun x => x.id = it.id)) with
        | none => .error ()
        | some (_, pq') =>
            .ok { c with
                    pq := pq', items := eraseItems c.items k,
                    currSize := c.currSize - 1,
                    evictLog := logEvict c it.key it.value }
      else .ok c
  | none => .ok c

theorem expireTask_eq_F (c : Cache) (k : CacheKey) (now : Int) :
    expireTask c k now = expireTaskF c k now := by
  unfold expireTask expireTaskF
  simp only [heapRemove_eq_F]

theorem lessI_false_iff (a b : CacheItem) :
    lessI a b = false ↔ (a.value.priority < b.value.priority ∨
      (a.value.priority = b.value.priority ∧ b.timestamp ≤ a.timestamp)) := by
  unfold lessI
  split
  · next h =>
    simp only [decide_eq_false_iff_not, Int.not_lt]
    omega
  · next h =>
    simp only [decide_eq_false_iff_not, Nat.not_lt, gt_iff_lt]
    omega

/-- The reference scenario's keys (from the repository's test suite). -/
def keyNYT : CacheKey := ⟨"nytimes.com", "2024-12-30"⟩

def keyYah : CacheKey := ⟨"yahoo.com", "2024-12-30"⟩

def keyGua : CacheKey := ⟨"theguardian.com", "2024-12-30"⟩

/-- The §8 reference scenario: capacity 2; priorities 1 and 2 inserted,
then a third entry of priority 1. -/
def scenario1 : Except Unit Cache :=
  (initCache 2).setWithTTL keyNYT ⟨1, 1⟩ 100 0 >>= fun c1 =>
  c1.setWithTTL keyYah ⟨2, 2⟩ 100 0 >>= fun c2 =>
  c2.setWithTTL keyGua ⟨3, 1⟩ 100 1

/-- C1: under capacity pressure each eviction step performed by
`SetWithTTL` removes the entry ranked top by the eviction ordering — the
numerically highest priority value, ties broken by the older creation
timestamp — among all entries in the eviction structure, and leaves the
structure in heap discipline so every later step does the same.	 The first
conjunct shows the state in which the eviction loop starts (any reachable
cache after the insertion phase) obeys the heap discipline; the second
shows one eviction step from any such state removes a top-ranked entry and
preserves the discipline; the third verifies the reference scenario:
capacity 2, priorities {1, 2, 1}, the third insert evicts exactly the
priority-2 entry (`yahoo.com`) and leaves both priority-1 entries
retrievable. -/
theorem claim_C1 :
    (∀ (c m : Cache) (k : CacheKey) (v : CacheValue) (ttl now : Int),
      Reachable c → setInsert c k v ttl now = .ok m → IsHeap m.pq) ∧
    (∀ (pq : List CacheItem) (ev : CacheItem) (pq' : List CacheItem),
      IsHeap pq → heapPop pq = some (ev, pq') →
        ((∀ o ∈ pq', o.value.priority < ev.value.priority ∨
          (o.value.priority = ev.value.priority ∧ ev.timestamp ≤ o.timestamp)) ∧
          IsHeap pq')) ∧
    Except.map (fun c3 => ((c3.get keyNYT 2).1.2, (c3.get keyGua 2).1.2,
        (c3.get keyYah 2).1, c3.evictLog)) scenario1 =
      .ok (true, true, (⟨0, 0⟩, false), [(keyYah, ⟨2, 2⟩)]) := by
  refine ⟨?_, ?_, ?_⟩
  · intro c m k v ttl now hr hok
    exact (setInsert_inv (reachable_inv hr) hok).hheap
  · intro pq ev pq' hheap hpop
    obtain ⟨h1, h2⟩ := heapPop_isHeap hheap hpop
    refine ⟨?_, h1⟩
    intro o ho
    have h3 := h2 o ho
    rw [lessI_false_iff] at h3
    exact h3
  · simp only [scenario1, setWithTTL_eq_F]
    rfl

/-- Witness for C1: a singleton queue obeys the heap discipline, and the
eviction step on it removes its only entry. -/
theorem claim_C1_witness :
    (∀ o ∈ ([] : List CacheItem), o.value.priority < dummyItem.value.priority ∨
      (o.value.priority = dummyItem.value.priority ∧
        dummyItem.timestamp ≤ o.timestamp)) ∧ IsHeap ([] : List CacheItem) :=
  claim_C1.2.1 [dummyItem] dummyItem []
    (by intro c hc0 hcn; simp at hcn; omega)
    (by rw [heapPop_eq_F]; rfl)

/-- C2: whenever a `SetWithTTL` call completes, the live count is at most
the capacity (the eviction loop runs synchronously inside the write), the
capacity itself never changes, and under the representation invariant a
write with nonnegative capacity always completes; interleaved active-expiry
removals only decrease the live count. -/
theorem claim_C2 :
    (∀ (c c' : Cache) (k : CacheKey) (v : CacheValue) (ttl now : Int),
      c.setWithTTL k v ttl now = .ok c' →
        c'.currSize ≤ c'.maxSize ∧ c'.maxSize = c.maxSize) ∧
    (∀ (c : Cache) (k : CacheKey) (v : CacheValue) (ttl now : Int),
      CacheInv c → 0 ≤ c.maxSize → ∃ c', c.setWithTTL k v ttl now = .ok c') ∧
    (∀ (c c' : Cache) (k : CacheKey) (now : Int),
      expireTask c k now = .ok c' →
        c'.currSize ≤ c.currSize ∧ c'.maxSize = c.maxSize) := by
  refine ⟨?_, ?_, ?_⟩
  · intro c c' k v ttl now h
    unfold Cache.setWithTTL at h
    split at h
    · exact absurd h (by simp)
    · next c2 hins =>
      obtain ⟨h1, h2, _⟩ := evictLoop_le h
      exact ⟨h1, by rw [h2, (setInsert_fields hins).1]⟩
  · intro c k v ttl now hI hmax
    exact setWithTTL_progress k v ttl now hI hmax
  · intro c c' k now h
    unfold expireTask at h
    split at h
    · split at h
      · split at h
        · exact absurd h (by simp)
        · injection h with h
          rw [← h]
          exact ⟨by simp only []; omega, rfl⟩
      · injection h with h
        rw [← h]
        exact ⟨le_refl _, rfl⟩
    · injection h with h
      rw [← h]
      exact ⟨le_refl _, rfl⟩

/-- Witness for C2: a write on a fresh cache of capacity 2 completes. -/
theorem claim_C2_witness :
    ∃ c', (initCache 2).setWithTTL keyNYT ⟨1, 1⟩ 100 0 = .ok c' :=
  claim_C2.2.1 (initCache 2) keyNYT ⟨1, 1⟩ 100 0 (inv_init 2) (by decide)

/-- C3 (amended): a key written via `SetWithTTL` with TTL `T` and not
overwritten afterwards is a hit at every time up to AND INCLUDING the
instant at which exactly `T` has elapsed, and a miss at every strictly
later time, even while still physically present.  (The claim as stated —
miss "at or after" `T` has elapsed — fails at the boundary: `Get` uses the
strict comparison `expiry.Before(now)`, so at exactly `T` elapsed the
entry is still a hit; see the counterexample.)	The first conjunct pins
the stored entry's deadline and creation time to `now + ttl` and `now`;
the second characterises a hit as `now ≤ expiry`; the third gives the
returned value on a hit. -/
theorem claim_C3 :
    (∀ (c c' : Cache) (k : CacheKey) (v : CacheValue) (ttl now : Int)
      (it : CacheItem), CacheInv c → c.setWithTTL k v ttl now = .ok c' →
      lookupItems c'.items k = some it →
        it.expiry = now + ttl ∧ it.timestamp = now) ∧
    (∀ (c : Cache) (k : CacheKey) (it : CacheItem) (t : Int),
      lookupItems c.items k = some it →
        (((c.get k t).1.2 = true) ↔ t ≤ it.expiry)) ∧
    (∀ (c : Cache) (k : CacheKey) (it : CacheItem) (t : Int),
      lookupItems c.items k = some it → t ≤ it.expiry →
        (c.get k t).1 = (it.value, true)) := by
  refine ⟨?_, ?_, ?_⟩
  · intro c c' k v ttl now it hI h hl
    rw [setWithTTL_lookup hI h hl]
    exact ⟨rfl, rfl⟩
  · intro c k it t hl
    exact get_found_iff hl
  · intro c k it t hl ht
    exact get_hit hl (by omega)

/-- Trace refuting C3 as stated: a write at instant 0 with TTL 5, read at
instant 5 (exactly the TTL elapsed). -/
def exC3 : Except Unit Cache := (initCache 10).setWithTTL keyNYT ⟨7, 1⟩ 5 0

/-- Counterexample to C3 as stated: at exactly `T` elapsed (write at 0,
TTL 5, read at 5) `Get` still returns the stored value with `found=true`,
though the claim requires a miss "at every time at or after T has
elapsed". -/
theorem claim_C3_counterexample :
    Except.map (fun c1 => (c1.get keyNYT 5).1) exC3 = .ok (⟨7, 1⟩, true) := by
  simp only [exC3, setWithTTL_eq_F]
  rfl

/-- Cache literal used to instantiate C3: one entry with deadline 5. -/
def itC3w : CacheItem := ⟨keyNYT, ⟨7, 1⟩, 5, 0, 0⟩

def cC3w : Cache := ⟨[(keyNYT, itC3w)], 10, 1, [itC3w], true, [], 1⟩

/-- Witness for C3: on the one-entry cache, a read at instant 3 (before
the deadline 5) is a hit. -/
theorem claim_C3_witness : ((cC3w.get keyNYT 3).1.2 = true) ↔ (3 : Int) ≤ itC3w.expiry :=
  claim_C3.2.1 cC3w keyNYT itC3w 3 rfl

/-- C4 (amended): the active-expiry task body removes the entry for its
key exactly when an entry is present and that entry's deadline has passed
— it does NOT check that the stored entry is the instance the task was
scheduled for.	A stale task whose entry was overwritten by a later write
with a later, not-yet-passed deadline is a no-op (second conjunct), but a
stale task CAN remove a newer entry whose own deadline has already passed
(see the counterexample).  Removal takes the entry out of the mapping and
the eviction structure and decrements the live count. -/
theorem claim_C4 :
    (∀ (c c' : Cache) (k : CacheKey) (now : Int) (it : CacheItem),
      CacheInv c → expireTask c k now = .ok c' →
      lookupItems c.items k = some it → it.expiry < now →
        lookupItems c'.items k = none ∧ c'.currSize = c.currSize - 1 ∧
          it ∉ c'.pq) ∧
    (∀ (c c' : Cache) (k : CacheKey) (now : Int) (it : CacheItem),
      expireTask c k now = .ok c' →
      lookupItems c.items k = some it → ¬ it.expiry < now → c' = c) ∧
    (∀ (c c' : Cache) (k : CacheKey) (now : Int),
      expireTask c k now = .ok c' → lookupItems c.items k = none → c' = c) := by
  refine ⟨?_, ?_, ?_⟩
  · intro c c' k now it hI h hlook hexp
    unfold expireTask at h
    split at h
    · next x hx =>
      have hxit : x = it := by
        rw [hx] at hlook
        injection hlook
      subst hxit
      split at h
      · split at h
        · exact absurd h (by simp)
        · next rem pq0 hrem =>
          injection h with h
          obtain ⟨hfidx, hfnth⟩ := findIdx_spec hI hx
          obtain ⟨hrev, hrperm, hrlen⟩ := heapRemove_spec hrem
          have hremx : rem = x := by rw [hrev, hfnth]
          rw [hremx] at hrperm
          obtain ⟨hnot, _, _⟩ := perm_cons_facts hI.hids hrperm
          rw [← h]
          refine ⟨lookupItems_erase_self hI.hkeys, rfl, hnot⟩
      · exact absurd hexp (by assumption)
    · next hx =>
      rw [hx] at hlook
      exact absurd hlook (by simp)
  · intro c c' k now it h hlook hexp
    unfold expireTask at h
    split at h
    · next x hx =>
      have hxit : x = it := by
        rw [hx] at hlook
        injection hlook
      subst hxit
      rw [if_neg hexp] at h
      injection h with h
      exact h.symm
    · next hx =>
      rw [hx] at hlook
      exact absurd hlook (by simp)
  · intro c c' k now h hlook
    unfold expireTask at h
    split at h
    · next x hx =>
      rw [hx] at hlook
      exact absurd hlook (by simp)
    · injection h with h
      exact h.symm

/-- Trace refuting C4 as stated: write `keyNYT` at instant 0 with TTL 10
(entry id 0, its expiry task wakes at instant 10 or later), overwrite at
instant 1 with TTL 2 (entry id 1, deadline 3), then run the FIRST write's
task body at instant 10 while the second entry is still unreaped. -/
def exC4 : Except Unit Cache :=
  (initCache 10).setWithTTL keyNYT ⟨1, 1⟩ 10 0 >>= fun c1 =>
  c1.setWithTTL keyNYT ⟨2, 1⟩ 2 1 >>= fun c2 =>
  expireTask c2 keyNYT 10

/-- Counterexample to C4 as stated: before the stale task runs, the entry
stored for the key is the SECOND write's instance (id 1), not the instance
the task was scheduled for (the first write allocated id 0); yet the task
removes it (live count drops to 0 and the key is gone), because the guard
checks only key presence and deadline, not instance identity. -/
theorem claim_C4_counterexample :
    (Except.map (fun c2 => (lookupItems c2.items keyNYT).map CacheItem.id)
      ((initCache 10).setWithTTL keyNYT ⟨1, 1⟩ 10 0 >>= fun c1 =>
        c1.setWithTTL keyNYT ⟨2, 1⟩ 2 1) = .ok (some 1)) ∧
    (madeItem (initCache 10) keyNYT ⟨1, 1⟩ 10 0).id = 0 ∧
    Except.map (fun c3 => (c3.currSize, lookupItems c3.items keyNYT)) exC4 =
      .ok (0, none) := by
  refine ⟨?_, rfl, ?_⟩
  · simp only [setWithTTL_eq_F]
    rfl
  · simp only [exC4, setWithTTL_eq_F, expireTask_eq_F]
    rfl

/-- Auxiliary: the one-entry cache literal satisfies the invariant. -/
theorem inv_cC3w : CacheInv cC3w := by
  refine ⟨rfl, rfl, ?_, ?_, ?_, ?_, ?_, ?_⟩
  · intro x hx
    simp [cC3w] at hx
    rw [hx]
    decide
  · intro p hp
    simp [cC3w] at hp
    rw [hp]
    exact ⟨by decide, rfl⟩
  · decide
  · decide
  · intro x hx
    simp [cC3w] at hx
    rw [hx]
    decide
  · intro cc hc0 hcn
    simp [cC3w] at hcn
    omega

/-- Witness for C4: on the one-entry cache literal, the task body run
after the deadline removes the entry. -/
theorem claim_C4_witness :
    lookupItems ((⟨[], 10, 0, [], true, [(keyNYT, ⟨7, 1⟩)], 1⟩ : Cache)).items
        keyNYT = none ∧
      (⟨[], 10, 0, [], true, [(keyNYT, ⟨7, 1⟩)], 1⟩ : Cache).currSize =
        cC3w.currSize - 1 ∧
      itC3w ∉ (⟨[], 10, 0, [], true, [(keyNYT, ⟨7, 1⟩)], 1⟩ : Cache).pq :=
  claim_C4.1 cC3w ⟨[], 10, 0, [], true, [(keyNYT, ⟨7, 1⟩)], 1⟩ keyNYT 7 itC3w
    inv_cC3w (by rw [expireTask_eq_F]; rfl) rfl (by decide)

/-- C5: when the downstream fetch for a nonempty miss set fails, the
handler responds with a server error (status 500) carrying no result rows
— the already-computed cache hits are discarded — and the cache is
returned exactly as it was: no write happens for any key. -/
theorem claim_C5 :
    ∀ (c : Cache) (rows : List Inventory) (ttl now : Int)
      (fetch : List (String × Inventory) → Except Unit (List EmissionData)),
      (collectRows c rows now).2 ≠ [] →
      fetch (collectRows c rows now).2 = .error () →
      emissionHandler c rows ttl now fetch = .ok (500, [], c) := by
  intro c rows ttl now fetch hne hfail
  have hempty : (collectRows c rows now).2.isEmpty = false := by
    cases h : (collectRows c rows now).2
    · exact absurd h hne
    · rfl
  simp only [emissionHandler, hempty, Bool.false_eq_true, if_false, hfail]

/-- Witness for C5: one uncached row with a failing fetch yields the error
response and the untouched fresh cache. -/
theorem claim_C5_witness :
    emissionHandler (initCache 5) [⟨"x", "d", 1⟩] 100 0 (fun _ => .error ()) =
      .ok (500, [], initCache 5) :=
  claim_C5 (initCache 5) [⟨"x", "d", 1⟩] 100 0 (fun _ => .error ())
    (by decide) rfl

/-- The colliding batch: two rows with the same identifier and different
dates. -/
def row1C6 : Inventory := ⟨"x", "d1", 1⟩

def row2C6 : Inventory := ⟨"x", "d2", 2⟩

def rowsC6 : List Inventory := [row1C6, row2C6]

/-- A collaborator response with one row for the single requested
identifier. -/
def fetchC6 : List (String × Inventory) → Except Unit (List EmissionData) :=
  fun _ => .ok [⟨"x", 42⟩]

/-- C6: miss deduplication is by entity identifier alone.  The first
conjunct: the miss map never holds two entries for one identifier, for any
batch.	The rest verify the collision concretely: with two rows sharing
identifier `"x"` but dates `"d1"`/`"d2"`, both missing an empty cache,
the miss map retains only one row (the later one), and with a collaborator
answer for that identifier the handler returns a single result row
(the other row is silently dropped) and writes only the key
`("x", "d2")`; `("x", "d1")` is never cached. -/
theorem claim_C6 :
    (∀ (c : Cache) (rows : List Inventory) (now : Int),
      (((collectRows c rows now).2).map Prod.fst).Nodup) ∧
    (collectRows (initCache 100) rowsC6 0).2 = [("x", row2C6)] ∧
    Except.map (fun r => (r.1, r.2.1, (r.2.2.get ⟨"x", "d2"⟩ 1).1.2,
        (r.2.2.get ⟨"x", "d1"⟩ 1).1.2))
      (emissionHandler (initCache 100) rowsC6 100 0 fetchC6) =
      .ok (200, [⟨"x", 42⟩], true, false) := by
  refine ⟨collectRows_keys_nodup, ?_, ?_⟩
  · simp only [collectRows, rowsC6, row1C6, row2C6]
    rfl
  · simp only [emissionHandler, writeBack, setWithTTL_eq_F]
    rfl

/-- C7: every cache operation preserves the representation invariant
`CacheInv` — live count = number of mapping entries = number of
eviction-structure entries, with exactly the same items in both structures
and at most one entry per key (`hkeys`).  `Get` leaves the state untouched
(first conjunct); `SetWithTTL` (with its capacity evictions) and the
active-expiry removal preserve the invariant, hence every reachable state
satisfies it.  The last conjunct is the update-in-place behaviour: a
`SetWithTTL` on an existing key removes the old entry from the eviction
structure (it is absent afterwards), its map slot is overwritten by the
single replacement entry, and the live count is decremented before being
incremented, so a key update always yields exactly one live entry. -/
theorem claim_C7 :
    (∀ (c : Cache) (k : CacheKey) (now : Int), (c.get k now).2 = c) ∧
    (∀ (c c' : Cache) (k : CacheKey) (v : CacheValue) (ttl now : Int),
      CacheInv c → c.setWithTTL k v ttl now = .ok c' → CacheInv c') ∧
    (∀ (c c' : Cache) (k : CacheKey) (now : Int),
      CacheInv c → expireTask c k now = .ok c' → CacheInv c') ∧
    (∀ (c : Cache), Reachable c → CacheInv c) ∧
    (∀ (c m : Cache) (k : CacheKey) (v : CacheValue) (ttl now : Int)
      (old : CacheItem), CacheInv c → lookupItems c.items k = some old →
      setInsert c k v ttl now = .ok m →
        old ∉ m.pq ∧ lookupItems m.items k = some (madeItem c k v ttl now) ∧
          m.currSize = c.currSize - 1 + 1) := by
  refine ⟨?_, ?_, ?_, ?_, ?_⟩
  · exact get_state
  · intro c c' k v ttl now hI h
    exact setWithTTL_inv hI h
  · intro c c' k now hI h
    exact expireTask_inv hI h
  · intro c h
    exact reachable_inv h
  · intro c m k v ttl now old hI hlook h
    unfold setInsert at h
    split at h
    case _ x hx =>
      have hxold : x = old := by
        rw [hx] at hlook
        injection hlook
      subst hxold
      split at h
      · exact absurd h (by simp)
      case _ rem pq0 hrem =>
        injection h with h
        obtain ⟨hfidx, hfnth⟩ := findIdx_spec hI hx
        obtain ⟨hrev, hrperm, hrlen⟩ := heapRemove_spec hrem
        have hremold : rem = x := by rw [hrev, hfnth]
        rw [hremold] at hrperm
        obtain ⟨hnot, _, _⟩ := perm_cons_facts hI.hids hrperm
        have holdpq : x ∈ c.pq := (hI.hmem (k, x) (lookupItems_mem hx)).1
        have holdid : x.id < c.nextId := hI.hfresh x holdpq
        rw [← h]
        refine ⟨?_, lookupItems_insert _ _ _, rfl⟩
        intro hmem
        simp only [] at hmem
        have h2 := (heapPush_perm pq0 (madeItem c k v ttl now)).subset hmem
        rcases List.mem_cons.mp h2 with h3 | h3
        · have : x.id = c.nextId := by rw [h3]; rfl
          omega
        · exact hnot h3
    case _ hx =>
      rw [hx] at hlook
      exact absurd hlook (by simp)

/-- Witness for C7: a freshly constructed cache is reachable, so it
satisfies the invariant. -/
theorem claim_C7_witness : CacheInv (initCache 3) :=
  claim_C7.2.2.2.1 (initCache 3) (Reachable.init 3)

/-- C8 (amended): for every entry created by `SetWithTTL` with a POSITIVE
ttl, the expiry deadline is strictly later than the creation timestamp.
(The claim as stated — for any TTL argument the cache accepts — fails:
`SetWithTTL` accepts any `time.Duration`, including zero and negative
values, and with `ttl = 0` the created entry has `expiry = timestamp`;
see the counterexample.) -/
theorem claim_C8 :
    ∀ (c c' : Cache) (k : CacheKey) (v : CacheValue) (ttl now : Int)
      (it : CacheItem), CacheInv c → 0 < ttl →
      c.setWithTTL k v ttl now = .ok c' → lookupItems c'.items k = some it →
      it.timestamp < it.expiry := by
  intro c c' k v ttl now it hI httl h hl
  rw [setWithTTL_lookup hI h hl]
  simp only [madeItem]
  omega

/-- Trace refuting C8 as stated: a write with `ttl = 0`, which the cache
accepts. -/
def exC8 : Except Unit Cache := (initCache 10).setWithTTL keyNYT ⟨7, 1⟩ 0 0

/-- Counterexample to C8 as stated: with the accepted TTL argument 0 the
stored entry has expiry equal to (not strictly later than) its creation
timestamp. -/
theorem claim_C8_counterexample :
    Except.map (fun c1 => (lookupItems c1.items keyNYT).map
      (fun it => (it.timestamp, it.expiry))) exC8 = .ok (some (0, 0)) := by
  simp only [exC8, setWithTTL_eq_F]
  rfl

/-- Witness for C8: the entry created by a write with TTL 5 at instant 0
on a fresh cache has timestamp 0 strictly before expiry 5. -/
theorem claim_C8_witness : itC3w.timestamp < itC3w.expiry :=
  claim_C8 (initCache 10) cC3w keyNYT ⟨7, 1⟩ 5 0 itC3w (inv_init 10)
    (by decide) (by rw [setWithTTL_eq_F]; rfl) rfl

/-- Sequence of reads, each at its own instant. -/
def readMany (c : Cache) (ks : List (CacheKey × Int)) : Cache :=
  ks.foldl (fun st p => (st.get p.1 p.2).2) c

/-- C9: `Get` never modifies the cache: the state after the read (mapping,
eviction structure, live count, log, allocator) is the input state, and so
any sequence of reads leaves the state unchanged.  In particular a
logically expired but unremoved entry is reported as a miss yet remains in
the mapping and the eviction structure and keeps its contribution to the
live count after the read. -/
theorem claim_C9 :
    (∀ (c : Cache) (k : CacheKey) (now : Int), (c.get k now).2 = c) ∧
    (∀ (c : Cache) (ks : List (CacheKey × Int)), readMany c ks = c) ∧
    (∀ (c : Cache) (k : CacheKey) (it : CacheItem) (now : Int),
      lookupItems c.items k = some it → it.expiry < now →
        (c.get k now).1 = (⟨0, 0⟩, false) ∧
        lookupItems ((c.get k now).2).items k = some it ∧
        ((c.get k now).2).currSize = c.currSize ∧
        ((c.get k now).2).pq = c.pq) := by
  refine ⟨get_state, ?_, ?_⟩
  · intro c ks
    induction ks generalizing c with
    | nil => rfl
    | cons p t ih =>
      show readMany ((c.get p.1 p.2).2) t = c
      rw [get_state]
      exact ih c
  · intro c k it now hl hexp
    refine ⟨get_miss_expired hl hexp, ?_, ?_, ?_⟩ <;> rw [get_state]
    exact hl

/-- Witness for C9: on the one-entry cache literal, a read at instant 7
(after the deadline 5) misses yet leaves the entry in place. -/
theorem claim_C9_witness :
    (cC3w.get keyNYT 7).1 = (⟨0, 0⟩, false) ∧
      lookupItems ((cC3w.get keyNYT 7).2).items keyNYT = some itC3w ∧
      ((cC3w.get keyNYT 7).2).currSize = cC3w.currSize ∧
      ((cC3w.get keyNYT 7).2).pq = cC3w.pq :=
  claim_C9.2.2 cC3w keyNYT itC3w 7 rfl (by decide)

/-- C10: every removal notifies the `onEvict` callback when it is set, not
only capacity eviction: the active-expiry removal appends the removed
entry's key and value to the notification log (first conjunct), each
capacity-eviction step does the same for the popped entry (second
conjunct), and the `SetWithTTL` eviction loop is exactly the iteration of
that step while the live count exceeds capacity (third conjunct). -/
theorem claim_C10 :
    (∀ (c c' : Cache) (k : CacheKey) (now : Int) (it : CacheItem),
      c.onEvictSet = true → lookupItems c.items k = some it →
      it.expiry < now → expireTask c k now = .ok c' →
        c'.evictLog = c.evictLog ++ [(it.key, it.value)]) ∧
    (∀ (c c' : Cache) (ev : CacheItem) (pq' : List CacheItem),
      c.onEvictSet = true → heapPop c.pq = some (ev, pq') →
      evictStep c = .ok c' →
        c'.evictLog = c.evictLog ++ [(ev.key, ev.value)]) ∧
    (∀ (c : Cache), c.currSize > c.maxSize →
      evictLoop c = (evictStep c).bind evictLoop) := by
  refine ⟨?_, ?_, ?_⟩
  · intro c c' k now it hset hlook hexp h
    unfold expireTask at h
    split at h
    case _ x hx =>
      have hxit : x = it := by
        rw [hx] at hlook
        injection hlook
      subst hxit
      rw [if_pos hexp] at h
      split at h
      · exact absurd h (by simp)
      · injection h with h
        rw [← h]
        simp only [logEvict, hset, if_true]
    case _ hx =>
      rw [hx] at hlook
      exact absurd hlook (by simp)
  · intro c c' ev pq' hset hpop h
    unfold evictStep at h
    rw [hpop] at h
    injection h with h
    rw [← h]
    simp only [logEvict, hset, if_true]
  · exact evictLoop_step

/-- Cache literal over capacity: capacity -1 with one entry. -/
def cC10w : Cache := ⟨[(keyNYT, itC3w)], -1, 1, [itC3w], true, [], 1⟩

/-- Witness for C10: popping the only entry of the over-capacity cache
literal appends exactly its notification. -/
theorem claim_C10_witness :
    (⟨[], -1, 0, [], true, [(keyNYT, ⟨7, 1⟩)], 1⟩ : Cache).evictLog =
      cC10w.evictLog ++ [(itC3w.key, itC3w.value)] :=
  claim_C10.2.1 cC10w ⟨[], -1, 0, [], true, [(keyNYT, ⟨7, 1⟩)], 1⟩ itC3w [] rfl
    (by rw [heapPop_eq_F]; rfl) (by unfold evictStep; rw [heapPop_eq_F]; rfl)
